/- Verification development for the WF-Solver wavefunction-collapse library.
   Shallow embedding of the cell algebra, the weighted iterator, the
   backtracking solver, the 2D grid layout and the Standard2D adjacency
   wavefunction, together with theorems settling the specification claims. -/
import Mathlib

namespace WFS

/- ===== Association-list primitives modelling HashMap operations ===== -/

/-- Lookup in an association list; models `HashMap::get`. -/
def alookup {α β : Type} [DecidableEq α] (l : List (α × β)) (k : α) : Option β :=
  (l.find? (fun p => decide (p.1 = k))).map Prod.snd

/-- Membership of a key; models `HashMap::contains_key`. -/
def containsKey {α β : Type} [DecidableEq α] (l : List (α × β)) (k : α) : Bool :=
  (alookup l k).isSome

/-- Models `map.entry(k).or_insert(0); *value = *value + c`. -/
def addCount {α : Type} [DecidableEq α] : List (α × ℕ) → α → ℕ → List (α × ℕ)
  | [], k, c => [(k, c)]
  | p :: rest, k, c =>
      if p.1 = k then (p.1, p.2 + c) :: rest else p :: addCount rest k c

/-- Models a loop of `entry().or_insert(0); += count` over `ws`. -/
def addWeights {α : Type} [DecidableEq α] (l ws : List (α × ℕ)) : List (α × ℕ) :=
  ws.foldl (fun acc p => addCount acc p.1 p.2) l

/-- Models `HashMap::remove(k)`. -/
def removeKey {α β : Type} [DecidableEq α] (l : List (α × β)) (k : α) : List (α × β) :=
  l.filter (fun p => !decide (p.1 = k))

/-- Models `if let Some(v) = get_mut(k) then saturating-subtract and remove at 0`. -/
def removeCount {α : Type} [DecidableEq α] : List (α × ℕ) → α → ℕ → List (α × ℕ)
  | [], _, _ => []
  | p :: rest, k, c =>
      if p.1 = k then (if p.2 - c = 0 then rest else (p.1, p.2 - c) :: rest)
      else p :: removeCount rest k c

/-- Models a loop of saturating-subtract-and-remove over `ws`. -/
def removeWeights {α : Type} [DecidableEq α] (l ws : List (α × ℕ)) : List (α × ℕ) :=
  ws.foldl (fun acc p => removeCount acc p.1 p.2) l

/-- Keys of an association list. -/
def keys {α β : Type} (l : List (α × β)) : List α := l.map Prod.fst

/- ===== Cell (src/cell.rs) ===== -/

/-- Enum `Operation` from src/cell.rs. -/
inductive Operation where
  | Union
  | Modification
  | Xor
  | Subtraction
  | Replacement
  | Intersection
  | ExclusiveReplacement
  | Null
  deriving DecidableEq

/-- Enum `Function` from src/cell.rs. -/
inductive Function where
  | Min
  | Max
  | A
  | B
  | Multiply
  | Add
  | Subtract
  deriving DecidableEq

/-- The cell sum type from src/cell.rs: collapsed to one value, or an
uncollapsed weighted map of candidate values (HashMap as association list). -/
inductive Cell (V : Type) where
  | Collapsed (value : V)
  | Uncollapsed (values : List (V × ℕ))
  deriving DecidableEq

variable {V : Type} [DecidableEq V]

/-- Models `Cell::is_collapsed`. -/
def Cell.isCollapsed : Cell V → Bool
  | .Collapsed _ => true
  | .Uncollapsed _ => false

/-- Models `Cell::collapse`: returns the advisory boolean and the new cell
state (the embedding returns the mutated cell explicitly). -/
def Cell.collapse : Cell V → V → Bool × Cell V
  | .Collapsed old, v =>
      if old = v then (true, .Collapsed old) else (false, .Collapsed v)
  | .Uncollapsed values, v => (containsKey values v, .Collapsed v)

/-- Models `Cell::get_value`. -/
def Cell.getValue : Cell V → Option V
  | .Collapsed v => some v
  | .Uncollapsed _ => none

/-- Models `Cell::get_possibilities`. -/
def Cell.getPossibilities : Cell V → List (V × ℕ)
  | .Collapsed _ => []
  | .Uncollapsed values => values

/-- Models `Cell::set_possibilities`. -/
def Cell.setPossibilities (_c : Cell V) (ws : List (V × ℕ)) : Cell V :=
  .Uncollapsed ws

/-- Models `Cell::add_possibility`. -/
def Cell.addPossibility : Cell V → V → Cell V
  | .Collapsed v, _ => .Collapsed v
  | .Uncollapsed values, p => .Uncollapsed (addCount values p 1)

/-- Models `Cell::add_possibility_count`. -/
def Cell.addPossibilityCount : Cell V → V → ℕ → Cell V
  | .Collapsed v, _, _ => .Collapsed v
  | .Uncollapsed values, p, w => .Uncollapsed (addCount values p w)

/-- Models `Cell::add_possibilities`. -/
def Cell.addPossibilities : Cell V → List (V × ℕ) → Cell V
  | .Collapsed v, _ => .Collapsed v
  | .Uncollapsed values, ws => .Uncollapsed (addWeights values ws)

/-- Models `Cell::remove_possibility`. -/
def Cell.removePossibility : Cell V → V → Cell V
  | .Collapsed v, _ => .Collapsed v
  | .Uncollapsed values, p => .Uncollapsed (removeKey values p)

/-- Models `Cell::remove_possibility_count`. -/
def Cell.removePossibilityCount : Cell V → V → ℕ → Cell V
  | .Collapsed v, _, _ => .Collapsed v
  | .Uncollapsed values, p, w => .Uncollapsed (removeCount values p w)

/-- Models `Cell::remove_possibilities`. -/
def Cell.removePossibilities : Cell V → List (V × ℕ) → Cell V
  | .Collapsed v, _ => .Collapsed v
  | .Uncollapsed values, ws => .Uncollapsed (removeWeights values ws)

/-- Models the free function `merge_possibility` of src/cell.rs; `none`
is the `unimplemented!` panic reached for `Function::Multiply`. -/
def mergePossibility : Function → ℕ → ℕ → Option ℕ
  | .Min, a, b => some (min a b)
  | .Max, a, b => some (max a b)
  | .A, a, _ => some a
  | .B, _, b => some b
  | .Multiply, _, _ => none
  | .Add, a, b => some (a + b)
  | .Subtract, a, b => some (a - b)

/-- One step of the `retain` closure in `Cell::merge_cell_possibilities`.
Outer `none` is a panic propagating out of `merge_possibility`; the inner
option records whether the entry is kept and with which weight. -/
def retainStep (op : Operation) (f : Function) (ws : List (V × ℕ)) (p : V × ℕ) :
    Option (Option (V × ℕ)) :=
  match op with
  | .Union | .Modification =>
      match alookup ws p.1 with
      | some b => (mergePossibility f p.2 b).map (fun w => some (p.1, w))
      | none => some (some p)
  | .Xor | .Subtraction =>
      some (if containsKey ws p.1 then none else some p)
  | .Replacement | .Intersection =>
      match alookup ws p.1 with
      | some b => (mergePossibility f p.2 b).map (fun w => some (p.1, w))
      | none => some none
  | .ExclusiveReplacement | .Null => some none

/-- The `retain` pass of `Cell::merge_cell_possibilities` over the whole
cell map, stopping at the first panic. -/
def retainAll (op : Operation) (f : Function) (ws : List (V × ℕ)) :
    List (V × ℕ) → Option (List (V × ℕ))
  | [] => some []
  | p :: rest => do
      let r ← retainStep op f ws p
      let rs ← retainAll op f ws rest
      pure (match r with | some q => q :: rs | none => rs)

/-- Models `Cell::merge_cell_possibilities`: the retain pass, then, for
Union, Xor, Replacement and ExclusiveReplacement, `add_possibilities`
of the whole parameter map. `none` is a panic. -/
def Cell.mergeCellPossibilities (c : Cell V) (op : Operation) (f : Function)
    (ws : List (V × ℕ)) : Option (Cell V) :=
  match c with
  | .Collapsed v => some (.Collapsed v)
  | .Uncollapsed values =>
      (retainAll op f ws values).map (fun kept =>
        match op with
        | .Union | .Xor | .Replacement | .ExclusiveReplacement =>
            .Uncollapsed (addWeights kept ws)
        | _ => .Uncollapsed kept)

/-- Every stored weight of an association list is strictly positive. -/
def posWeights (l : List (V × ℕ)) : Prop := ∀ p ∈ l, 0 < p.2

instance (l : List (V × ℕ)) : Decidable (posWeights l) := by
  unfold posWeights; infer_instance

/-- The positive-weight invariant of spec property P1. -/
def Cell.posInv : Cell V → Prop
  | .Collapsed _ => True
  | .Uncollapsed values => posWeights values

instance (c : Cell V) : Decidable (Cell.posInv c) := by
  cases c <;> (unfold Cell.posInv; infer_instance)

/-- Models the value of `Cell::entropy` with real numbers in place of
f64: for an uncollapsed cell, the Shannon entropy accumulated exactly as
the source loop does (sum the weights, then sum probability times log2
probability and negate). This exact-real model is adequate only where
every intermediate f64 value is an exactly representable real: the empty
map, a positive singleton and a collapsed cell, where the computation is
exact. A superposition holding a zero-weight entry makes the f64
computation produce NaN; that case is modelled faithfully by
`Cell.entropyF` below, which the solver model uses. -/
noncomputable def Cell.entropy : Cell V → ℝ
  | .Collapsed _ => 0
  | .Uncollapsed possibilities =>
      let total : ℝ := possibilities.foldl (fun acc p => acc + (p.2 : ℝ)) 0;
      let acc : ℝ :=
        possibilities.foldl
          (fun acc p => acc + ((p.2 : ℝ) / total) * Real.logb 2 ((p.2 : ℝ) / total)) 0;
      -acc

/- ===== WeightedIterator (src/weighted_iterator.rs) ===== -/

/-- The struct `WeightedIterator`: the remaining entries and the running
total weight. Note the source never updates `total_sum` after `new`. -/
structure WI (V : Type) where
  items : List (V × ℕ)
  total_sum : ℕ
  deriving DecidableEq

/-- Models `WeightedIterator::new`. -/
def WI.new (map : List (V × ℕ)) : WI V :=
  ⟨map, (map.map Prod.snd).sum⟩

/-- Models `thread_rng().gen_range(0..n)`: randomness is an explicit stream
of naturals; the drawn value is reduced into the range. The `none` result is
the panic that `gen_range` raises on an empty range (n = 0). -/
def genRange (n : ℕ) (rng : List ℕ) : Option (ℕ × List ℕ) :=
  if n = 0 then none else some (rng.headD 0 % n, rng.tail)

/-- The accumulation loop of `WeightedIterator::next`: add weights in order
and return the index of the first entry whose cumulative sum reaches the
selection, if any. -/
def cumFind : List ℕ → ℕ → ℕ → Option ℕ
  | [], _, _ => none
  | w :: ws, selection, cum =>
      if selection ≤ cum + w then some 0
      else (cumFind ws selection (cum + w)).map (· + 1)

/-- Models `Vec::swap_remove` at a valid index: the element is replaced by
the last element and the vector shrinks by one. -/
def swapRemove {α : Type} (l : List α) (i : ℕ) : List α :=
  match l.getLast? with
  | none => l
  | some last => (l.set i last).dropLast

/-- Models `WeightedIterator::next`. Outer `none` is a panic; the inner
option is the yielded item; the iterator state and the randomness stream
are returned alongside. `total_sum` is left untouched, as in the source. -/
def WI.next (w : WI V) (rng : List ℕ) : Option (Option V × WI V × List ℕ) :=
  match genRange w.total_sum rng with
  | none => none
  | some (selection, rng') =>
      match cumFind (w.items.map Prod.snd) selection 0 with
      | none => some (none, w, rng')
      | some i =>
          match w.items[i]? with
          | none => none
          | some item => some (some item.1, ⟨swapRemove w.items i, w.total_sum⟩, rng')

/- ===== Solver (src/solver.rs) over an abstract coordinate-keyed layout ===== -/

variable {C : Type} [DecidableEq C]

/-- A layout as seen by the solver: the association of coordinates to
cells produced by `Layout::cells`. -/
abbrev SLayout (C V : Type) := List (C × Cell V)

/-- Models the default `Layout::candidates`: the uncollapsed cells. -/
def candidatesL (l : SLayout C V) : SLayout C V :=
  l.filter (fun p => !p.2.isCollapsed)

/-- Models `Layout::get_cell` and `get_cell_mut` lookups for the solver. -/
def getCellL (l : SLayout C V) (c : C) : Option (Cell V) := alookup l c

/-- Models writing through `get_cell_mut`: replace the cell stored at the
coordinate. -/
def setCellL (l : SLayout C V) (c : C) (cell : Cell V) : SLayout C V :=
  l.map (fun p => if p.1 = c then (p.1, cell) else p)

/-- One step of the scan in `Solver::next_coord`: the two comparisons
against the running lowest entropy, pushing ties and resetting on a new
minimum. The initial `f64::MAX` sentinel is modelled by `none` (every
actual entropy compares below it). -/
noncomputable def scanStep (st : List C × Option ℝ) (p : C × Cell V) :
    List C × Option ℝ :=
  let e := p.2.entropy
  match st.2 with
  | none => ([p.1], some e)
  | some le =>
      if e = le then (st.1 ++ [p.1], some le)
      else if e < le then ([p.1], some e)
      else st

/-- The candidate scan of `Solver::next_coord`: all coordinates tied at the
lowest entropy seen, in scan order. -/
noncomputable def nextCoordScan (l : SLayout C V) : List C × Option ℝ :=
  (candidatesL l).foldl scanStep ([], none)

/-- Models `SliceRandom::choose`: none on an empty slice, otherwise a
randomly indexed element. -/
def chooseL (xs : List C) (rng : List ℕ) : Option C × List ℕ :=
  match xs with
  | [] => (none, rng)
  | _ => (xs[rng.headD 0 % xs.length]?, rng.tail)

/-- Models `Solver::next_coord`. -/
noncomputable def nextCoordM (l : SLayout C V) (rng : List ℕ) :
    Option C × List ℕ :=
  chooseL (nextCoordScan l).1 rng

mutual
/-- Models `Solver::collapse`, fuel-indexed (the source recursion has no
structural termination argument against an arbitrary propagation hook).
Outer `none` is a panic or exhausted fuel; `some (none, rng)` is the
backtracking return of `None`; `some (some l, rng)` is a solution. -/
noncomputable def collapseGo (hook : SLayout C V → C → V → SLayout C V) :
    ℕ → SLayout C V → C → List ℕ → Option (Option (SLayout C V) × List ℕ)
  | 0, _, _, _ => none
  | fuel + 1, layout, coord, rng =>
      match getCellL layout coord with
      | none => none
      | some cell => loopGo hook fuel layout coord (WI.new cell.getPossibilities) rng

/-- The candidate loop inside `Solver::collapse`: draw the next weighted
candidate, clone the layout, commit the value, run the hook, pick the next
coordinate and recurse; on a failed branch continue with the next draw. -/
noncomputable def loopGo (hook : SLayout C V → C → V → SLayout C V) :
    ℕ → SLayout C V → C → WI V → List ℕ → Option (Option (SLayout C V) × List ℕ)
  | 0, _, _, _, _ => none
  | fuel + 1, layout, coord, wi, rng =>
      match WI.next wi rng with
      | none => none
      | some (none, _, rng') => some (none, rng')
      | some (some v, wi', rng') =>
          match getCellL layout coord with
          | none => none
          | some _ =>
              let newLayout := hook (setCellL layout coord (.Collapsed v)) coord v
              match nextCoordM newLayout rng' with
              | (none, rng2) => some (some newLayout, rng2)
              | (some nc, rng2) =>
                  match collapseGo hook fuel newLayout nc rng2 with
                  | none => none
                  | some (some sol, rng3) => some (some sol, rng3)
                  | some (none, rng3) => loopGo hook fuel layout coord wi' rng3
end

/-- Models `Solver::solve` on a starting layout. -/
noncomputable def solveM (hook : SLayout C V → C → V → SLayout C V) (fuel : ℕ)
    (initial : SLayout C V) (rng : List ℕ) :
    Option (Option (SLayout C V) × List ℕ) :=
  match nextCoordM initial rng with
  | (none, rng') => some (some initial, rng')
  | (some c, rng') => collapseGo hook fuel initial c rng'

/- ===== The f64 special-value model and the entropy-faithful solver ===== -/

/-- A model of f64 values: a finite value carried exactly as a real
number, the two infinities, and NaN. Finite arithmetic is idealized as
exact (no rounding or overflow of finite intermediates), but the special
values NaN and the infinities propagate as in IEEE 754, which is what the
entropy computation of src/cell.rs can produce when a stored weight is 0
(division 0.0/0.0, and 0.0 times log2(0.0) = negative infinity, are NaN). -/
inductive F where
  | fin (x : ℝ)
  | pinf
  | ninf
  | nan

/-- Models f64 addition. -/
noncomputable def fadd : F → F → F
  | .nan, _ => .nan
  | _, .nan => .nan
  | .fin a, .fin b => .fin (a + b)
  | .fin _, .pinf => .pinf
  | .pinf, .fin _ => .pinf
  | .pinf, .pinf => .pinf
  | .fin _, .ninf => .ninf
  | .ninf, .fin _ => .ninf
  | .ninf, .ninf => .ninf
  | .pinf, .ninf => .nan
  | .ninf, .pinf => .nan

/-- Models f64 division (signed zero ignored: the dividend and divisor in
the source are nonnegative weight sums). -/
noncomputable def fdiv : F → F → F
  | .nan, _ => .nan
  | _, .nan => .nan
  | .fin a, .fin b =>
      if b = 0 then (if a = 0 then .nan else if 0 < a then .pinf else .ninf)
      else .fin (a / b)
  | .fin _, .pinf => .fin 0
  | .fin _, .ninf => .fin 0
  | .pinf, .fin b => if b < 0 then .ninf else .pinf
  | .ninf, .fin b => if b < 0 then .pinf else .ninf
  | .pinf, .pinf => .nan
  | .pinf, .ninf => .nan
  | .ninf, .pinf => .nan
  | .ninf, .ninf => .nan

/-- Models f64 multiplication. -/
noncomputable def fmul : F → F → F
  | .nan, _ => .nan
  | _, .nan => .nan
  | .fin a, .fin b => .fin (a * b)
  | .fin a, .pinf => if a = 0 then .nan else if 0 < a then .pinf else .ninf
  | .pinf, .fin a => if a = 0 then .nan else if 0 < a then .pinf else .ninf
  | .fin a, .ninf => if a = 0 then .nan else if 0 < a then .ninf else .pinf
  | .ninf, .fin a => if a = 0 then .nan else if 0 < a then .ninf else .pinf
  | .pinf, .pinf => .pinf
  | .ninf, .ninf => .pinf
  | .pinf, .ninf => .ninf
  | .ninf, .pinf => .ninf

/-- Models `f64::log2`: negative infinity at 0, NaN below 0. -/
noncomputable def flog2 : F → F
  | .nan => .nan
  | .fin a => if a = 0 then .ninf else if a < 0 then .nan else .fin (Real.logb 2 a)
  | .pinf => .pinf
  | .ninf => .nan

/-- Models f64 negation. -/
noncomputable def fneg : F → F
  | .fin a => .fin (-a)
  | .pinf => .ninf
  | .ninf => .pinf
  | .nan => .nan

/-- Models the f64 `==` comparison: NaN compares unequal to everything,
itself included. -/
noncomputable def fbeq : F → F → Bool
  | .fin a, .fin b => decide (a = b)
  | .pinf, .pinf => true
  | .ninf, .ninf => true
  | _, _ => false

/-- Models the f64 `<` comparison: false whenever either side is NaN. -/
noncomputable def fblt : F → F → Bool
  | .nan, _ => false
  | _, .nan => false
  | .fin a, .fin b => decide (a < b)
  | .ninf, .fin _ => true
  | .ninf, .pinf => true
  | .ninf, .ninf => false
  | .fin _, .pinf => true
  | .fin _, .ninf => false
  | .pinf, _ => false

/-- The value of `f64::MAX`, exactly. -/
noncomputable def f64MAX : ℝ := 2 ^ 1024 - 2 ^ 971

/-- Models `Cell::entropy` over the f64 special-value model: the same
loop as `Cell.entropy`, but NaN produced by a zero weight (0.0/0.0, or
0.0 times log2 of 0.0) propagates to the result instead of being erased
by the exact-real conventions. -/
noncomputable def Cell.entropyF : Cell V → F
  | .Collapsed _ => F.fin 0
  | .Uncollapsed possibilities =>
      let total : F :=
        possibilities.foldl (fun acc p => fadd acc (F.fin (p.2 : ℝ))) (F.fin 0);
      let acc : F :=
        possibilities.foldl
          (fun acc p =>
            let probability := fdiv (F.fin (p.2 : ℝ)) total;
            fadd acc (fmul probability (flog2 probability))) (F.fin 0);
      fneg acc

/-- One step of the scan in `Solver::next_coord` over the f64 model: the
running lowest entropy starts at `f64::MAX` and the two source
comparisons are the f64 ones, so a NaN entropy triggers neither the push
nor the reset and the cell is skipped. -/
noncomputable def scanStepF (st : List C × F) (p : C × Cell V) : List C × F :=
  let e := Cell.entropyF p.2;
  let st1 := if fbeq e st.2 = true then (st.1 ++ [p.1], st.2) else st;
  if fblt e st1.2 = true then ([p.1], e) else st1

/-- The candidate scan of `Solver::next_coord` over the f64 model. -/
noncomputable def nextCoordScanF (l : SLayout C V) : List C × F :=
  (candidatesL l).foldl scanStepF ([], F.fin f64MAX)

/-- Models `Solver::next_coord` over the f64 model. -/
noncomputable def nextCoordMF (l : SLayout C V) (rng : List ℕ) :
    Option C × List ℕ :=
  chooseL (nextCoordScanF l).1 rng

mutual
/-- Models `Solver::collapse` over the f64 entropy model (the recursion
and the weighted iterator are as in `collapseGo`; only the entropy
comparisons inside `next_coord` differ). -/
noncomputable def collapseGoF (hook : SLayout C V → C → V → SLayout C V) :
    ℕ → SLayout C V → C → List ℕ → Option (Option (SLayout C V) × List ℕ)
  | 0, _, _, _ => none
  | fuel + 1, layout, coord, rng =>
      match getCellL layout coord with
      | none => none
      | some cell => loopGoF hook fuel layout coord (WI.new cell.getPossibilities) rng

/-- The candidate loop inside `Solver::collapse` over the f64 model. -/
noncomputable def loopGoF (hook : SLayout C V → C → V → SLayout C V) :
    ℕ → SLayout C V → C → WI V → List ℕ → Option (Option (SLayout C V) × List ℕ)
  | 0, _, _, _, _ => none
  | fuel + 1, layout, coord, wi, rng =>
      match WI.next wi rng with
      | none => none
      | some (none, _, rng') => some (none, rng')
      | some (some v, wi', rng') =>
          match getCellL layout coord with
          | none => none
          | some _ =>
              let newLayout := hook (setCellL layout coord (.Collapsed v)) coord v
              match nextCoordMF newLayout rng' with
              | (none, rng2) => some (some newLayout, rng2)
              | (some nc, rng2) =>
                  match collapseGoF hook fuel newLayout nc rng2 with
                  | none => none
                  | some (some sol, rng3) => some (some sol, rng3)
                  | some (none, rng3) => loopGoF hook fuel layout coord wi' rng3
end

/-- Models `Solver::solve` on a starting layout over the f64 model. -/
noncomputable def solveMF (hook : SLayout C V → C → V → SLayout C V) (fuel : ℕ)
    (initial : SLayout C V) (rng : List ℕ) :
    Option (Option (SLayout C V) × List ℕ) :=
  match nextCoordMF initial rng with
  | (none, rng') => some (some initial, rng')
  | (some c, rng') => collapseGoF hook fuel initial c rng'

/- ===== Coord2D, Direction and Grid (src/layout/grid) ===== -/

/-- The size of the usize value space; coordinate arithmetic wraps at it. -/
def USIZE : ℕ := 2 ^ 64

/-- Models `usize::wrapping_sub`. -/
def wrapSub (a b : ℕ) : ℕ := (a + (USIZE - b % USIZE)) % USIZE

/-- Models `usize::wrapping_add`. -/
def wrapAdd (a b : ℕ) : ℕ := (a + b) % USIZE

/-- The grid coordinate type of src/layout/grid/coord2d.rs. -/
structure Coord2D where
  x : ℕ
  y : ℕ
  deriving DecidableEq

/-- The eight compass directions of src/layout/grid/coord2d.rs. -/
inductive Direction where
  | UpLeft
  | Up
  | UpRight
  | Left
  | Right
  | DownLeft
  | Down
  | DownRight
  deriving DecidableEq

/-- Models `Coord2D::up`. -/
def Coord2D.up (c : Coord2D) : Coord2D := ⟨c.x, wrapSub c.y 1⟩

/-- Models `Coord2D::up_left`. -/
def Coord2D.upLeft (c : Coord2D) : Coord2D := ⟨wrapSub c.x 1, wrapSub c.y 1⟩

/-- Models `Coord2D::up_right`. -/
def Coord2D.upRight (c : Coord2D) : Coord2D := ⟨wrapAdd c.x 1, wrapSub c.y 1⟩

/-- Models `Coord2D::down`. -/
def Coord2D.down (c : Coord2D) : Coord2D := ⟨c.x, wrapAdd c.y 1⟩

/-- Models `Coord2D::down_left`. -/
def Coord2D.downLeft (c : Coord2D) : Coord2D := ⟨wrapSub c.x 1, wrapAdd c.y 1⟩

/-- Models `Coord2D::down_right`. -/
def Coord2D.downRight (c : Coord2D) : Coord2D := ⟨wrapAdd c.x 1, wrapAdd c.y 1⟩

/-- Models `Coord2D::left`. -/
def Coord2D.left (c : Coord2D) : Coord2D := ⟨wrapSub c.x 1, c.y⟩

/-- Models `Coord2D::right`. -/
def Coord2D.right (c : Coord2D) : Coord2D := ⟨wrapAdd c.x 1, c.y⟩

/-- Models `Coord2D::neighbors` (eight neighbors, source order). -/
def Coord2D.neighbors (c : Coord2D) : List Coord2D :=
  [c.upLeft, c.up, c.upRight, c.left, c.right, c.downLeft, c.down, c.downRight]

/-- Models `Coord2D::neighbor_directions4` (source order). -/
def Coord2D.neighborDirections4 (c : Coord2D) : List (Coord2D × Direction) :=
  [(c.up, .Up), (c.left, .Left), (c.right, .Right), (c.down, .Down)]

/-- The dense 2D grid layout of src/layout/grid/mod.rs: a list of rows. -/
structure Grid (V : Type) where
  x : ℕ
  y : ℕ
  cells : List (List (Cell V))
  deriving DecidableEq

/-- Models `Grid::new`. -/
def Grid.new (V : Type) (x y : ℕ) : Grid V :=
  ⟨x, y, List.replicate y (List.replicate x (.Uncollapsed []))⟩

/-- Models `Grid::get_cell`: row lookup by y, then column lookup by x. -/
def Grid.getCell (g : Grid V) (c : Coord2D) : Option (Cell V) :=
  (g.cells[c.y]?).bind (fun row => row[c.x]?)

/-- Models `Grid::get_cell_mut` (the same lookup as `get_cell`). -/
def Grid.getCellMut (g : Grid V) (c : Coord2D) : Option (Cell V) :=
  (g.cells[c.y]?).bind (fun row => row[c.x]?)

/-- Models the pattern `if let Some(cell) = get_cell_mut(coord)` followed by
an in-place mutation of that cell; out-of-bounds leaves the grid unchanged. -/
def Grid.modifyCell (g : Grid V) (c : Coord2D) (f : Cell V → Cell V) : Grid V :=
  match g.cells[c.y]? with
  | none => g
  | some row =>
      match row[c.x]? with
      | none => g
      | some cell => ⟨g.x, g.y, g.cells.set c.y (row.set c.x (f cell))⟩

/-- Models the default `Layout::add_cell_possibility`. -/
def Grid.addCellPossibility (g : Grid V) (c : Coord2D) (v : V) : Grid V :=
  g.modifyCell c (fun cell => cell.addPossibility v)

/-- Models the default `Layout::add_cell_possibility_count`. -/
def Grid.addCellPossibilityCount (g : Grid V) (c : Coord2D) (v : V) (n : ℕ) : Grid V :=
  g.modifyCell c (fun cell => cell.addPossibilityCount v n)

/-- Models the default `Layout::add_cell_possibilities`. -/
def Grid.addCellPossibilities (g : Grid V) (c : Coord2D) (ws : List (V × ℕ)) : Grid V :=
  g.modifyCell c (fun cell => cell.addPossibilities ws)

/-- Models the default `Layout::remove_cell_possibility`. -/
def Grid.removeCellPossibility (g : Grid V) (c : Coord2D) (v : V) : Grid V :=
  g.modifyCell c (fun cell => cell.removePossibility v)

/-- Models the default `Layout::remove_cell_possibility_count`. -/
def Grid.removeCellPossibilityCount (g : Grid V) (c : Coord2D) (v : V) (n : ℕ) : Grid V :=
  g.modifyCell c (fun cell => cell.removePossibilityCount v n)

/-- Models the default `Layout::remove_cell_possibilities`. -/
def Grid.removeCellPossibilities (g : Grid V) (c : Coord2D) (ws : List (V × ℕ)) : Grid V :=
  g.modifyCell c (fun cell => cell.removePossibilities ws)

/-- Models the default `Layout::add_cells_possibility`. -/
def Grid.addCellsPossibility (g : Grid V) (coords : List Coord2D) (v : V) : Grid V :=
  coords.foldl (fun acc c => acc.addCellPossibility c v) g

/-- Models the default `Layout::add_cells_possibility_count`. -/
def Grid.addCellsPossibilityCount (g : Grid V) (coords : List Coord2D) (v : V) (n : ℕ) : Grid V :=
  coords.foldl (fun acc c => acc.addCellPossibilityCount c v n) g

/-- Models the default `Layout::add_cells_possibilities`. -/
def Grid.addCellsPossibilities (g : Grid V) (coords : List Coord2D) (ws : List (V × ℕ)) : Grid V :=
  coords.foldl (fun acc c => acc.addCellPossibilities c ws) g

/-- Models the default `Layout::remove_cells_possibility`. -/
def Grid.removeCellsPossibility (g : Grid V) (coords : List Coord2D) (v : V) : Grid V :=
  coords.foldl (fun acc c => acc.removeCellPossibility c v) g

/-- Models the default `Layout::remove_cells_possibility_count`. -/
def Grid.removeCellsPossibilityCount (g : Grid V) (coords : List Coord2D) (v : V) (n : ℕ) : Grid V :=
  coords.foldl (fun acc c => acc.removeCellPossibilityCount c v n) g

/-- Models the default `Layout::remove_cells_possibilities`. -/
def Grid.removeCellsPossibilities (g : Grid V) (coords : List Coord2D) (ws : List (V × ℕ)) : Grid V :=
  coords.foldl (fun acc c => acc.removeCellPossibilities c ws) g

/- ===== Standard2D (src/wavefunction/standard.rs) ===== -/

/-- Modelled from the spec: the layout helper `Layout::clear_cell` called by
`Standard2D::collapse` is not present under src/ (only its caller is); per
the spec it sets an in-bounds cell to the empty superposition, the
contradiction signal, and silently skips out-of-bounds coordinates. -/
def Grid.clearCell (g : Grid V) (c : Coord2D) : Grid V :=
  g.modifyCell c (fun _ => .Uncollapsed [])

/-- Modelled from the spec: the layout helper `Layout::merge_cell_possibilities`
called by `Standard2D::collapse` is not present under src/; per the spec it
applies `Cell::merge_cell_possibilities` to the cell at the coordinate and
silently skips out-of-bounds coordinates. `none` is a propagated panic. -/
def Grid.mergeCellPossibilities (g : Grid V) (c : Coord2D) (op : Operation)
    (f : Function) (ws : List (V × ℕ)) : Option (Grid V) :=
  match g.getCell c with
  | none => some g
  | some cell =>
      (cell.mergeCellPossibilities op f ws).map (fun cell' => g.modifyCell c (fun _ => cell'))

/-- The adjacency map of `Standard2D`, with tiles as opaque values. -/
abbrev AdjMap (V : Type) := List (V × List (Direction × List (V × ℕ)))

/-- The body of the orthogonal-neighbor loop of `Standard2D::collapse`:
merge with Intersection and Min where the direction has recorded
adjacencies, clear the neighbor where it does not. -/
def orthStep (tileAdj : List (Direction × List (V × ℕ))) (acc : Grid V)
    (nd : Coord2D × Direction) : Option (Grid V) :=
  match alookup tileAdj nd.2 with
  | some ws => acc.mergeCellPossibilities nd.1 .Intersection .Min ws
  | none => some (acc.clearCell nd.1)

/-- Models `Standard2D::collapse` (src/wavefunction/standard.rs): if the
collapsed value has no adjacency entry at all, clear all eight neighbors;
otherwise walk the four orthogonal neighbors with `orthStep`. -/
def std2dCollapse (adj : AdjMap V) (g : Grid V) (coord : Coord2D) (value : V) :
    Option (Grid V) :=
  match alookup adj value with
  | none => some (coord.neighbors.foldl (fun acc n => acc.clearCell n) g)
  | some tileAdj => coord.neighborDirections4.foldlM (orthStep tileAdj) g

/- ===== Helper lemmas ===== -/

/-- The free merge function panics exactly for Multiply. -/
theorem mergePossibility_eq_none_iff (f : Function) (a b : ℕ) :
    mergePossibility f a b = none ↔ f = Function.Multiply := by
  cases f <;> simp [mergePossibility]

/-- Operations grouped by whether the retain pass applies the combine
function to overlap entries. -/
def appliesFn (op : Operation) : Prop :=
  op = Operation.Union ∨ op = Operation.Modification ∨
  op = Operation.Replacement ∨ op = Operation.Intersection

instance (op : Operation) : Decidable (appliesFn op) := by
  unfold appliesFn; infer_instance

/-- The retain pass panics exactly when Multiply is the combine function,
the operation applies it, and some entry of the cell map overlaps `ws`. -/
theorem retainAll_eq_none_iff (op : Operation) (f : Function) (ws : List (V × ℕ))
    (values : List (V × ℕ)) :
    retainAll op f ws values = none ↔
      (f = Function.Multiply ∧ appliesFn op ∧
       ∃ p ∈ values, containsKey ws p.1 = true) := by
  induction values with
  | nil => simp [retainAll]
  | cons p rest ih =>
      have hstep : retainStep op f ws p = none ↔
          (f = Function.Multiply ∧ appliesFn op ∧ containsKey ws p.1 = true) := by
        cases op with
        | Union =>
            cases h : alookup ws p.1 <;>
              simp [retainStep, appliesFn, containsKey, h, mergePossibility_eq_none_iff]
        | Modification =>
            cases h : alookup ws p.1 <;>
              simp [retainStep, appliesFn, containsKey, h, mergePossibility_eq_none_iff]
        | Replacement =>
            cases h : alookup ws p.1 <;>
              simp [retainStep, appliesFn, containsKey, h, mergePossibility_eq_none_iff]
        | Intersection =>
            cases h : alookup ws p.1 <;>
              simp [retainStep, appliesFn, containsKey, h, mergePossibility_eq_none_iff]
        | Xor => simp [retainStep, appliesFn]
        | Subtraction => simp [retainStep, appliesFn]
        | ExclusiveReplacement => simp [retainStep, appliesFn]
        | Null => simp [retainStep, appliesFn]
      constructor
      · intro hnone
        simp only [retainAll] at hnone
        cases hs : retainStep op f ws p with
        | none =>
            rcases hstep.mp hs with ⟨hf, hop, hk⟩
            exact ⟨hf, hop, p, by simp, hk⟩
        | some r =>
            rw [hs] at hnone
            cases hr : retainAll op f ws rest with
            | none =>
                rcases ih.mp hr with ⟨hf, hop, q, hq, hk⟩
                exact ⟨hf, hop, q, by simp [hq], hk⟩
            | some rs => rw [hr] at hnone; simp at hnone
      · rintro ⟨hf, hop, q, hq, hk⟩
        simp only [retainAll]
        rcases List.mem_cons.mp hq with hq | hq
        · subst hq
          rw [hstep.mpr ⟨hf, hop, hk⟩]
          rfl
        · cases hs : retainStep op f ws p with
          | none => rfl
          | some r => rw [ih.mpr ⟨hf, hop, q, hq, hk⟩]; rfl

/-- Merging never panics when the combine function is applied to no
overlap entry or is not Multiply. -/
theorem mergeCellPossibilities_eq_none_iff (c : Cell V) (op : Operation)
    (f : Function) (ws : List (V × ℕ)) :
    c.mergeCellPossibilities op f ws = none ↔
      (f = Function.Multiply ∧ appliesFn op ∧
       ∃ values, c = Cell.Uncollapsed values ∧ ∃ p ∈ values, containsKey ws p.1 = true) := by
  cases c with
  | Collapsed v => simp [Cell.mergeCellPossibilities]
  | Uncollapsed values =>
      simp only [Cell.mergeCellPossibilities, Option.map_eq_none']
      rw [retainAll_eq_none_iff]
      constructor
      · rintro ⟨hf, hop, hex⟩; exact ⟨hf, hop, values, rfl, hex⟩
      · rintro ⟨hf, hop, values2, heq, hex⟩
        cases heq
        exact ⟨hf, hop, hex⟩

/- ===== Claim C1 ===== -/

/-- C1: refuted on the code. `WeightedIterator::next` never subtracts the
drawn weight from `total_sum`, so with pool weights 1,1,1 (S stays 3) and
random draws 0, 0, 2 the third call accumulates only the single remaining
weight 1 < 2, finds no index and yields `None` while an item is still in
the pool: only two of the three keys are ever produced, and after the
first draw the running total is still 3 rather than 2. -/
theorem wi_next_drops_items :
    WI.new [((0 : ℕ), 1), (1, 1), (2, 1)] = ⟨[(0, 1), (1, 1), (2, 1)], 3⟩ ∧
    WI.next (⟨[(0, 1), (1, 1), (2, 1)], 3⟩ : WI ℕ) [0, 0, 2]
      = some (some 0, ⟨[(2, 1), (1, 1)], 3⟩, [0, 2]) ∧
    WI.next (⟨[(2, 1), (1, 1)], 3⟩ : WI ℕ) [0, 2]
      = some (some 2, ⟨[(1, 1)], 3⟩, [2]) ∧
    WI.next (⟨[(1, 1)], 3⟩ : WI ℕ) [2]
      = some (none, ⟨[(1, 1)], 3⟩, []) ∧
    (⟨[(1, 1)], 3⟩ : WI ℕ).items ≠ [] := by
  decide

/- ===== Claim C2 ===== -/

/-- C2: refuted on the code. On an empty pool `total_sum` is 0, and
`next()` evaluates `thread_rng().gen_range(0..0)`, which panics on the
empty range instead of returning `None`; consequently when the solver
selects a coordinate whose superposition was emptied by the propagation
hook, `Solver::collapse` panics (modelled by the `none` outcome) instead
of backtracking with `None`. -/
theorem wi_next_empty_panics :
    WI.next (WI.new ([] : List (ℕ × ℕ))) [0] = none ∧
    collapseGo (fun l _ _ => l) 5 [((0 : ℕ), Cell.Uncollapsed ([] : List (ℕ × ℕ)))] 0 [0]
      = none := by
  constructor
  · decide
  · rfl

/- ===== Claim C3 ===== -/

/-- C3: refuted on the code. For `Operation::Xor` the keep-subset table
(the doc table in src/cell.rs) drops overlap keys, but after the retain
pass the source calls `add_possibilities` with the whole parameter map,
re-inserting every overlap key: with cell map containing key 0 and
parameter map containing key 0, the merged cell still contains key 0. -/
theorem merge_xor_keeps_overlap :
    Cell.mergeCellPossibilities (Cell.Uncollapsed [((0 : ℕ), 1)])
        Operation.Xor Function.Min [(0, 1)]
      = some (Cell.Uncollapsed [(0, 1)]) ∧
    containsKey [((0 : ℕ), 1)] 0 = true := by
  decide

/- ===== Claim C6 ===== -/

/-- C6: `Cell::collapse` always leaves the cell collapsed to the given
value, and returns true exactly when the cell was already collapsed to
that value or the value was a key of the prior superposition. -/
theorem collapse_overwrites_and_advises (c : Cell V) (v : V) :
    (Cell.collapse c v).2 = Cell.Collapsed v ∧
    ((Cell.collapse c v).1 = true ↔
      (c = Cell.Collapsed v ∨
       ∃ values, c = Cell.Uncollapsed values ∧ containsKey values v = true)) := by
  cases c with
  | Collapsed old =>
      by_cases h : old = v
      · subst h; simp [Cell.collapse]
      · simp [Cell.collapse, h]
  | Uncollapsed values => simp [Cell.collapse]

/- ===== Claim C8 ===== -/

/-- C8: refuted as universally stated. Selecting `Function::Multiply`
does not always panic: with no overlap between the cell map and the
parameter map the combine function is never invoked, so the merge
returns normally. -/
theorem merge_multiply_no_overlap_no_panic :
    Cell.mergeCellPossibilities (Cell.Uncollapsed [((0 : ℕ), 1)])
        Operation.Union Function.Multiply [(1, 1)]
      = some (Cell.Uncollapsed [(0, 1), (1, 1)]) := by
  decide

/-- C8 amended: `merge_cell_possibilities` panics (`none`) precisely when
Multiply is selected, the operation applies the combine function
(Union, Modification, Replacement or Intersection), the cell is
uncollapsed, and some cell entry overlaps the parameter map; in
particular with any other combine function no Cell operation raises. -/
theorem merge_multiply_panic_iff (c : Cell V) (op : Operation) (f : Function)
    (ws : List (V × ℕ)) :
    (c.mergeCellPossibilities op f ws = none ↔
      (f = Function.Multiply ∧ appliesFn op ∧
       ∃ values, c = Cell.Uncollapsed values ∧
         ∃ p ∈ values, containsKey ws p.1 = true)) ∧
    (f ≠ Function.Multiply → c.mergeCellPossibilities op f ws ≠ none) := by
  refine ⟨mergeCellPossibilities_eq_none_iff c op f ws, ?_⟩
  intro hf hnone
  exact hf ((mergeCellPossibilities_eq_none_iff c op f ws).mp hnone).1

/-- Witness for the amended C8 theorem at a concrete non-Multiply merge. -/
theorem merge_multiply_panic_iff_witness :
    Function.Min ≠ Function.Multiply ∧
    Cell.mergeCellPossibilities (Cell.Uncollapsed [((0 : ℕ), 1)])
      Operation.Union Function.Min [(0, 1)] ≠ none :=
  ⟨by decide,
   (merge_multiply_panic_iff (Cell.Uncollapsed [((0 : ℕ), 1)])
      Operation.Union Function.Min [(0, 1)]).2 (by decide)⟩

/- ===== Positivity machinery for Claim C4 ===== -/

/-- Keys of a cell map are pairwise distinct (the HashMap representation
invariant). -/
def Cell.keysNodup : Cell V → Prop
  | .Collapsed _ => True
  | .Uncollapsed values => (keys values).Nodup

instance (c : Cell V) : Decidable (Cell.keysNodup c) := by
  cases c <;> (unfold Cell.keysNodup; infer_instance)

theorem alookup_cons {α β : Type} [DecidableEq α] (q : α × β) (rest : List (α × β)) (x : α) :
    alookup (q :: rest) x = if q.1 = x then some q.2 else alookup rest x := by
  by_cases h : q.1 = x <;> simp [alookup, List.find?_cons, h]

theorem alookup_mem {α β : Type} [DecidableEq α] {l : List (α × β)} {x : α} {b : β}
    (h : alookup l x = some b) : (x, b) ∈ l := by
  induction l with
  | nil => simp [alookup] at h
  | cons q rest ih =>
      rw [alookup_cons] at h
      by_cases hq : q.1 = x
      · rw [if_pos hq] at h
        exact List.mem_cons.mpr (Or.inl (by cases q; cases h; cases hq; rfl))
      · rw [if_neg hq] at h
        exact List.mem_cons.mpr (Or.inr (ih h))

theorem addCount_pos {l : List (V × ℕ)} {k : V} {c : ℕ}
    (hl : posWeights l) (hc : 0 < c) : posWeights (addCount l k c) := by
  induction l with
  | nil => intro p hp; simp [addCount] at hp; simp [hp, hc]
  | cons q rest ih =>
      intro p hp
      by_cases hq : q.1 = k
      · simp only [addCount, if_pos hq] at hp
        rcases List.mem_cons.mp hp with h | h
        · subst h; have := hl q (by simp); simp only []; omega
        · exact hl p (by simp [h])
      · simp only [addCount, if_neg hq] at hp
        rcases List.mem_cons.mp hp with h | h
        · subst h; exact hl p (by simp)
        · exact ih (fun r hr => hl r (by simp [hr])) p h

theorem addWeights_pos {ws : List (V × ℕ)} (hws : posWeights ws) :
    ∀ {l : List (V × ℕ)}, posWeights l → posWeights (addWeights l ws) := by
  induction ws with
  | nil => intro l hl; simpa [addWeights] using hl
  | cons q rest ih =>
      intro l hl
      have hq : 0 < q.2 := hws q (by simp)
      have hrest : posWeights rest := fun r hr => hws r (by simp [hr])
      simpa [addWeights] using ih hrest (addCount_pos hl hq)

theorem removeKey_pos {l : List (V × ℕ)} {k : V} (hl : posWeights l) :
    posWeights (removeKey l k) :=
  fun p hp => hl p (List.mem_of_mem_filter hp)

theorem removeCount_pos {l : List (V × ℕ)} {k : V} {c : ℕ} (hl : posWeights l) :
    posWeights (removeCount l k c) := by
  induction l with
  | nil => intro p hp; simp [removeCount] at hp
  | cons q rest ih =>
      intro p hp
      have hrest : posWeights rest := fun r hr => hl r (by simp [hr])
      by_cases hq : q.1 = k
      · simp only [removeCount, if_pos hq] at hp
        by_cases hz : q.2 - c = 0
        · rw [if_pos hz] at hp; exact hrest p hp
        · rw [if_neg hz] at hp
          rcases List.mem_cons.mp hp with h | h
          · subst h; exact Nat.pos_of_ne_zero hz
          · exact hrest p h
      · simp only [removeCount, if_neg hq] at hp
        rcases List.mem_cons.mp hp with h | h
        · subst h; exact hl p (by simp)
        · exact ih hrest p h

theorem removeWeights_pos {ws : List (V × ℕ)} :
    ∀ {l : List (V × ℕ)}, posWeights l → posWeights (removeWeights l ws) := by
  induction ws with
  | nil => intro l hl; simpa [removeWeights] using hl
  | cons q rest ih =>
      intro l hl
      simpa [removeWeights] using ih (removeCount_pos hl)

theorem addCount_keys_mem {l : List (V × ℕ)} {k : V} {c : ℕ} :
    ∀ x ∈ keys (addCount l k c), x ∈ keys l ∨ x = k := by
  induction l with
  | nil => intro x hx; simp [addCount, keys] at hx; simp [hx]
  | cons q rest ih =>
      intro x hx
      by_cases hq : q.1 = k
      · simp only [addCount, if_pos hq, keys, List.map_cons] at hx
        rcases List.mem_cons.mp hx with h | h
        · simp [keys, h]
        · simp [keys, h]
      · simp only [addCount, if_neg hq, keys, List.map_cons] at hx
        rcases List.mem_cons.mp hx with h | h
        · simp [keys, h]
        · rcases ih x h with h2 | h2
          · simp only [keys, List.map_cons]
            exact Or.inl (List.mem_cons.mpr (Or.inr h2))
          · simp [h2]

theorem addCount_keys_nodup {l : List (V × ℕ)} {k : V} {c : ℕ}
    (hnd : (keys l).Nodup) : (keys (addCount l k c)).Nodup := by
  induction l with
  | nil => simp [addCount, keys]
  | cons q rest ih =>
      simp only [keys, List.map_cons, List.nodup_cons] at hnd
      by_cases hq : q.1 = k
      · simpa [addCount, if_pos hq, keys, List.nodup_cons] using hnd
      · simp only [addCount, if_neg hq, keys, List.map_cons, List.nodup_cons]
        refine ⟨?_, ih hnd.2⟩
        intro hmem
        rcases addCount_keys_mem q.1 hmem with h | h
        · exact hnd.1 h
        · exact hq h

theorem addCount_mem_cases {l : List (V × ℕ)} {k : V} {c : ℕ}
    (hnd : (keys l).Nodup) :
    ∀ p ∈ addCount l k c,
      (p ∈ l ∧ p.1 ≠ k) ∨ (∃ w, (k, w) ∈ l ∧ p = (k, w + c)) ∨
      (p = (k, c) ∧ k ∉ keys l) := by
  induction l with
  | nil => intro p hp; simp [addCount] at hp; simp [keys, hp]
  | cons q rest ih =>
      simp only [keys, List.map_cons, List.nodup_cons] at hnd
      intro p hp
      by_cases hq : q.1 = k
      · simp only [addCount, if_pos hq] at hp
        rcases List.mem_cons.mp hp with h | h
        · refine Or.inr (Or.inl ⟨q.2, ?_, ?_⟩)
          · exact List.mem_cons.mpr (Or.inl (by cases q; cases hq; rfl))
          · subst h; cases hq; rfl
        · left
          refine ⟨List.mem_cons.mpr (Or.inr h), ?_⟩
          intro hpk
          exact hnd.1 (by rw [hq, ← hpk]; exact List.mem_map.mpr ⟨p, h, rfl⟩)
      · simp only [addCount, if_neg hq] at hp
        rcases List.mem_cons.mp hp with h | h
        · subst h; exact Or.inl ⟨by simp, hq⟩
        · rcases ih hnd.2 p h with h2 | h2 | h2
          · exact Or.inl ⟨List.mem_cons.mpr (Or.inr h2.1), h2.2⟩
          · rcases h2 with ⟨w, hw, hpw⟩
            exact Or.inr (Or.inl ⟨w, List.mem_cons.mpr (Or.inr hw), hpw⟩)
          · refine Or.inr (Or.inr ⟨h2.1, ?_⟩)
            simp only [keys, List.map_cons, List.mem_cons]
            rintro (h3 | h3)
            · exact hq h3.symm
            · exact h2.2 h3

theorem addWeights_pos_of_cover {ws : List (V × ℕ)} (hws : posWeights ws) :
    ∀ {l : List (V × ℕ)}, (keys l).Nodup →
      (∀ p ∈ l, 0 < p.2 ∨ containsKey ws p.1 = true) →
      posWeights (addWeights l ws) := by
  induction ws with
  | nil =>
      intro l _ hcov p hp
      rcases hcov p hp with h | h
      · simpa [addWeights] using h
      · simp [containsKey, alookup] at h
  | cons q rest ih =>
      intro l hnd hcov
      have hq : 0 < q.2 := hws q (by simp)
      have hrest : posWeights rest := fun r hr => hws r (by simp [hr])
      have hstep : addWeights l (q :: rest) = addWeights (addCount l q.1 q.2) rest := by
        simp [addWeights]
      rw [hstep]
      refine ih hrest (addCount_keys_nodup hnd) ?_
      intro p hp
      rcases addCount_mem_cases hnd p hp with h | h | h
      · rcases hcov p h.1 with h2 | h2
        · exact Or.inl h2
        · right
          simp only [containsKey] at h2 ⊢
          rw [alookup_cons] at h2
          rw [if_neg (fun h3 => h.2 h3.symm)] at h2
          exact h2
      · rcases h with ⟨w, _, hpw⟩
        exact Or.inl (by simp only [hpw]; omega)
      · exact Or.inl (by simp [h.1, hq])

theorem retainStep_some_cases {op : Operation} {f : Function} {ws : List (V × ℕ)}
    {p : V × ℕ} {r : Option (V × ℕ)} (h : retainStep op f ws p = some r) :
    r = none ∨ r = some p ∨
    (appliesFn op ∧ ∃ b, alookup ws p.1 = some b ∧
      ∃ w, mergePossibility f p.2 b = some w ∧ r = some (p.1, w)) := by
  cases op with
  | Union | Modification | Replacement | Intersection =>
      revert h
      cases hl : alookup ws p.1 with
      | none =>
          intro h
          simp only [retainStep, hl] at h
          cases Option.some.inj h
          simp
      | some b =>
          intro h
          simp only [retainStep, hl] at h
          all_goals
            cases hm : mergePossibility f p.2 b with
            | none => rw [hm] at h; simp at h
            | some w =>
                rw [hm] at h
                simp only [Option.map_some', Option.some_inj] at h
                exact Or.inr (Or.inr ⟨by simp [appliesFn], b, rfl, w, hm, h.symm⟩)
  | Xor | Subtraction =>
      simp only [retainStep, Option.some_inj] at h
      by_cases hc : containsKey ws p.1 = true
      · rw [if_pos hc] at h; simp [← h]
      · rw [if_neg hc] at h; simp [← h]
  | ExclusiveReplacement | Null =>
      simp only [retainStep, Option.some_inj] at h <;> simp [← h]

theorem retainAll_cons_elim {op : Operation} {f : Function} {ws : List (V × ℕ)}
    {p : V × ℕ} {rest kept : List (V × ℕ)}
    (h : retainAll op f ws (p :: rest) = some kept) :
    ∃ r rs, retainStep op f ws p = some r ∧ retainAll op f ws rest = some rs ∧
      kept = (match r with | some q => q :: rs | none => rs) := by
  simp only [retainAll] at h
  cases hs : retainStep op f ws p with
  | none => rw [hs] at h; simp at h
  | some r =>
      rw [hs] at h
      cases hr : retainAll op f ws rest with
      | none => rw [hr] at h; simp at h
      | some rs =>
          rw [hr] at h
          simp only [Option.bind_eq_bind, Option.some_bind, Option.pure_def,
            Option.some_inj] at h
          exact ⟨r, rs, rfl, rfl, h.symm⟩

theorem retainAll_mem_cases {op : Operation} {f : Function} {ws values kept : List (V × ℕ)}
    (h : retainAll op f ws values = some kept) :
    ∀ q ∈ kept, q ∈ values ∨
      (appliesFn op ∧ ∃ p ∈ values, ∃ b, alookup ws p.1 = some b ∧
        q.1 = p.1 ∧ mergePossibility f p.2 b = some q.2) := by
  induction values generalizing kept with
  | nil =>
      simp only [retainAll, Option.some_inj] at h
      subst h; intro q hq; simp at hq
  | cons p rest ih =>
      rcases retainAll_cons_elim h with ⟨r, rs, hs, hr, hk⟩
      intro q hq
      have hmem : q ∈ rs → q ∈ rest ∨ _ := fun hq2 => ih hr q hq2
      rcases retainStep_some_cases hs with h0 | h0 | h0
      · subst h0
        rcases ih hr q (by simpa [hk] using hq) with h2 | h2
        · exact Or.inl (by simp [h2])
        · rcases h2 with ⟨hop, p2, hp2, b, hb, hqp, hm⟩
          exact Or.inr ⟨hop, p2, by simp [hp2], b, hb, hqp, hm⟩
      · subst h0
        rw [hk] at hq
        rcases List.mem_cons.mp hq with h2 | h2
        · exact Or.inl (by simp [h2])
        · rcases ih hr q h2 with h3 | h3
          · exact Or.inl (by simp [h3])
          · rcases h3 with ⟨hop, p2, hp2, b, hb, hqp, hm⟩
            exact Or.inr ⟨hop, p2, by simp [hp2], b, hb, hqp, hm⟩
      · rcases h0 with ⟨hop, b, hb, w, hm, hr2⟩
        subst hr2
        rw [hk] at hq
        rcases List.mem_cons.mp hq with h2 | h2
        · subst h2
          exact Or.inr ⟨hop, p, by simp, b, hb, rfl, by simpa using hm⟩
        · rcases ih hr q h2 with h3 | h3
          · exact Or.inl (by simp [h3])
          · rcases h3 with ⟨hop2, p2, hp2, b2, hb2, hqp, hm2⟩
            exact Or.inr ⟨hop2, p2, by simp [hp2], b2, hb2, hqp, hm2⟩

theorem retainAll_keys_sublist {op : Operation} {f : Function} {ws values kept : List (V × ℕ)}
    (h : retainAll op f ws values = some kept) :
    (keys kept).Sublist (keys values) := by
  induction values generalizing kept with
  | nil =>
      simp only [retainAll, Option.some_inj] at h
      subst h; simp [keys]
  | cons p rest ih =>
      rcases retainAll_cons_elim h with ⟨r, rs, hs, hr, hk⟩
      rcases retainStep_some_cases hs with h0 | h0 | h0
      · subst h0
        simp only [hk, keys, List.map_cons]
        exact (ih hr).cons p.1
      · subst h0
        simp only [hk, keys, List.map_cons]
        exact (ih hr).cons₂ p.1
      · rcases h0 with ⟨_, b, _, w, _, hr2⟩
        subst hr2
        simp only [hk, keys, List.map_cons]
        exact (ih hr).cons₂ p.1

theorem mergePossibility_pos {f : Function} {a b w : ℕ} (ha : 0 < a) (hb : 0 < b)
    (hf : f ≠ Function.Subtract) (h : mergePossibility f a b = some w) : 0 < w := by
  cases f <;>
    first
      | exact absurd rfl hf
      | (simp [mergePossibility] at h; omega)
      | simp [mergePossibility] at h

/- ===== Claim C4 ===== -/

/-- C4: refuted as stated. Merging with `Function::Subtract` under
`Operation::Modification` leaves an entry whose weight was reduced to 0
stored in the superposition: the claimed removal of zero-weight entries
after a merge does not happen. -/
theorem merge_modification_subtract_zero :
    Cell.mergeCellPossibilities (Cell.Uncollapsed [((0 : ℕ), 2)])
        Operation.Modification Function.Subtract [(0, 2)]
      = some (Cell.Uncollapsed [(0, 0)]) ∧
    ¬ Cell.posInv (Cell.Uncollapsed [((0 : ℕ), 0)]) := by
  decide

/-- C4 amended: starting from an all-positive superposition with distinct
keys, `add_possibility`, the removal operations, `add_possibility_count`
and `add_possibilities` with positive added weights, and
`merge_cell_possibilities` with an all-positive other map all preserve the
positive-weight invariant, except that merging with `Function::Subtract`
under `Operation::Modification` or `Operation::Intersection` may store a
zero weight (such entries are not removed). -/
theorem cell_ops_preserve_positive_weights (c : Cell V)
    (hc : c.posInv) (hnd : c.keysNodup) :
    (∀ v, (c.addPossibility v).posInv) ∧
    (∀ v n, 0 < n → (c.addPossibilityCount v n).posInv) ∧
    (∀ ws, posWeights ws → (c.addPossibilities ws).posInv) ∧
    (∀ v, (c.removePossibility v).posInv) ∧
    (∀ v n, (c.removePossibilityCount v n).posInv) ∧
    (∀ ws, (c.removePossibilities ws).posInv) ∧
    (∀ op f ws c', posWeights ws →
      ¬(f = Function.Subtract ∧
        (op = Operation.Modification ∨ op = Operation.Intersection)) →
      c.mergeCellPossibilities op f ws = some c' → c'.posInv) := by
  cases c with
  | Collapsed v0 =>
      refine ⟨fun v => trivial, fun v n _ => trivial, fun ws _ => trivial,
        fun v => trivial, fun v n => trivial, fun ws => trivial, ?_⟩
      intro op f ws c' _ _ hm
      simp only [Cell.mergeCellPossibilities, Option.some_inj] at hm
      subst hm; trivial
  | Uncollapsed values =>
      have hval : posWeights values := hc
      have hndv : (keys values).Nodup := hnd
      refine ⟨?_, ?_, ?_, ?_, ?_, ?_, ?_⟩
      · intro v; exact addCount_pos hval Nat.one_pos
      · intro v n hn; exact addCount_pos hval hn
      · intro ws hws; exact addWeights_pos hws hval
      · intro v; exact removeKey_pos hval
      · intro v n; exact removeCount_pos hval
      · intro ws; exact removeWeights_pos hval
      · intro op f ws c' hws hexc hm
        simp only [Cell.mergeCellPossibilities] at hm
        cases hret : retainAll op f ws values with
        | none => rw [hret] at hm; simp at hm
        | some kept =>
            rw [hret] at hm
            simp only [Option.map_some', Option.some_inj] at hm
            have hkeysnd : (keys kept).Nodup :=
              (retainAll_keys_sublist hret).nodup hndv
            have hcases := retainAll_mem_cases hret
            have hcover : ∀ q ∈ kept, 0 < q.2 ∨ containsKey ws q.1 = true := by
              intro q hq
              rcases hcases q hq with h | h
              · exact Or.inl (hval q h)
              · rcases h with ⟨_, p, _, b, hb, hqp, _⟩
                exact Or.inr (by simp [containsKey, hqp, hb])
            have hkeptpos : (appliesFn op → f ≠ Function.Subtract) →
                posWeights kept := by
              intro hf q hq
              rcases hcases q hq with h | h
              · exact hval q h
              · rcases h with ⟨hop, p, hp, b, hb, hqp, hmq⟩
                exact mergePossibility_pos (hval p hp)
                  (hws _ (alookup_mem hb)) (hf hop) hmq
            cases op <;> subst hm
            case Union =>
                exact addWeights_pos_of_cover hws hkeysnd hcover
            case Xor =>
                exact addWeights_pos_of_cover hws hkeysnd hcover
            case Replacement =>
                exact addWeights_pos_of_cover hws hkeysnd hcover
            case ExclusiveReplacement =>
                exact addWeights_pos_of_cover hws hkeysnd hcover
            case Modification =>
                exact hkeptpos (fun _ hf => hexc ⟨hf, Or.inl rfl⟩)
            case Subtraction =>
                exact hkeptpos (fun hop => absurd hop (by simp [appliesFn]))
            case Intersection =>
                exact hkeptpos (fun _ hf => hexc ⟨hf, Or.inr rfl⟩)
            case Null =>
                exact hkeptpos (fun hop => absurd hop (by simp [appliesFn]))

/-- Witness for the amended C4 theorem at a concrete cell, operation and
weight map. -/
theorem cell_ops_positive_witness :
    (Cell.posInv (Cell.Uncollapsed [((0 : ℕ), 2)]) ∧
     Cell.keysNodup (Cell.Uncollapsed [((0 : ℕ), 2)]) ∧
     posWeights [((0 : ℕ), 3)] ∧
     ¬(Function.Add = Function.Subtract ∧
       (Operation.Union = Operation.Modification ∨
        Operation.Union = Operation.Intersection)) ∧
     Cell.mergeCellPossibilities (Cell.Uncollapsed [((0 : ℕ), 2)])
        Operation.Union Function.Add [(0, 3)]
       = some (Cell.Uncollapsed [(0, 8)])) ∧
    Cell.posInv (Cell.Uncollapsed [((0 : ℕ), 8)]) :=
  ⟨⟨by decide, by decide, by decide, by decide, by decide⟩,
   (cell_ops_preserve_positive_weights (Cell.Uncollapsed [((0 : ℕ), 2)])
      (by decide) (by decide)).2.2.2.2.2.2 Operation.Union Function.Add
      [(0, 3)] (Cell.Uncollapsed [(0, 8)]) (by decide) (by decide) (by decide)⟩

/- ===== Claim C9 ===== -/

theorem grid_oob_getCell {g : Grid V} {c : Coord2D}
    (hrows : g.cells.length = g.y) (hcols : ∀ row ∈ g.cells, row.length = g.x)
    (hoob : g.x ≤ c.x ∨ g.y ≤ c.y) : g.getCell c = none := by
  unfold Grid.getCell
  cases hy : g.cells[c.y]? with
  | none => rfl
  | some row =>
      cases hx : row[c.x]? with
      | none => simpa using hx
      | some cell =>
          exfalso
          have hylt : c.y < g.cells.length := by
            by_contra h
            rw [List.getElem?_eq_none (Nat.le_of_not_lt h)] at hy
            exact Option.noConfusion hy
          have hxlt : c.x < row.length := by
            by_contra h
            rw [List.getElem?_eq_none (Nat.le_of_not_lt h)] at hx
            exact Option.noConfusion hx
          have hrow : row ∈ g.cells := List.getElem?_mem hy
          rcases hoob with h | h
          · rw [hcols row hrow] at hxlt; omega
          · rw [hrows] at hylt; omega

theorem grid_oob_modify {g : Grid V} {c : Coord2D}
    (hrows : g.cells.length = g.y) (hcols : ∀ row ∈ g.cells, row.length = g.x)
    (hoob : g.x ≤ c.x ∨ g.y ≤ c.y) (f : Cell V → Cell V) :
    g.modifyCell c f = g := by
  have h := grid_oob_getCell hrows hcols hoob (g := g) (c := c)
  unfold Grid.getCell at h
  unfold Grid.modifyCell
  cases hy : g.cells[c.y]? with
  | none => rfl
  | some row =>
      rw [hy] at h
      cases hx : row[c.x]? with
      | none => simp [hx]
      | some cell => simp [hx] at h

/-- C9: out-of-bounds grid coordinates, including the wrap-on-underflow
result of `Coord2D(0,0).up()`, read as absent through `get_cell` and
`get_cell_mut`, and every coordinate-taking bulk helper of the Layout
trait silently skips such a coordinate, leaving the grid unchanged. -/
theorem grid_oob_access_absent_and_skipped (g : Grid V)
    (hrows : g.cells.length = g.y) (hcols : ∀ row ∈ g.cells, row.length = g.x)
    (c : Coord2D) (hoob : g.x ≤ c.x ∨ g.y ≤ c.y) :
    g.getCell c = none ∧
    g.getCellMut c = none ∧
    (∀ v, g.addCellPossibility c v = g) ∧
    (∀ v n, g.addCellPossibilityCount c v n = g) ∧
    (∀ ws, g.addCellPossibilities c ws = g) ∧
    (∀ v, g.removeCellPossibility c v = g) ∧
    (∀ v n, g.removeCellPossibilityCount c v n = g) ∧
    (∀ ws, g.removeCellPossibilities c ws = g) ∧
    (∀ cs v, g.addCellsPossibility (c :: cs) v = g.addCellsPossibility cs v) ∧
    (∀ cs v n, g.addCellsPossibilityCount (c :: cs) v n
       = g.addCellsPossibilityCount cs v n) ∧
    (∀ cs ws, g.addCellsPossibilities (c :: cs) ws
       = g.addCellsPossibilities cs ws) ∧
    (∀ cs v, g.removeCellsPossibility (c :: cs) v
       = g.removeCellsPossibility cs v) ∧
    (∀ cs v n, g.removeCellsPossibilityCount (c :: cs) v n
       = g.removeCellsPossibilityCount cs v n) ∧
    (∀ cs ws, g.removeCellsPossibilities (c :: cs) ws
       = g.removeCellsPossibilities cs ws) ∧
    (g.y < USIZE →
      Coord2D.up ⟨0, 0⟩ = ⟨0, USIZE - 1⟩ ∧
      g.getCell (Coord2D.up ⟨0, 0⟩) = none) := by
  have hmod := grid_oob_modify hrows hcols hoob (g := g) (c := c)
  refine ⟨grid_oob_getCell hrows hcols hoob,
    grid_oob_getCell hrows hcols hoob, ?_, ?_, ?_, ?_, ?_, ?_,
    ?_, ?_, ?_, ?_, ?_, ?_, ?_⟩
  · intro v; exact hmod _
  · intro v n; exact hmod _
  · intro ws; exact hmod _
  · intro v; exact hmod _
  · intro v n; exact hmod _
  · intro ws; exact hmod _
  · intro cs v; simp [Grid.addCellsPossibility, Grid.addCellPossibility, hmod]
  · intro cs v n; simp [Grid.addCellsPossibilityCount, Grid.addCellPossibilityCount, hmod]
  · intro cs ws; simp [Grid.addCellsPossibilities, Grid.addCellPossibilities, hmod]
  · intro cs v; simp [Grid.removeCellsPossibility, Grid.removeCellPossibility, hmod]
  · intro cs v n; simp [Grid.removeCellsPossibilityCount, Grid.removeCellPossibilityCount, hmod]
  · intro cs ws; simp [Grid.removeCellsPossibilities, Grid.removeCellPossibilities, hmod]
  · intro hy
    have hup : Coord2D.up ⟨0, 0⟩ = ⟨0, USIZE - 1⟩ := by
      simp only [Coord2D.up, wrapSub, USIZE]
      norm_num
    refine ⟨hup, ?_⟩
    rw [hup]
    exact grid_oob_getCell hrows hcols (Or.inr (by simp only [USIZE] at hy ⊢; omega))

/-- Witness for the C9 theorem on a concrete 2 by 2 grid and the
out-of-bounds coordinate (5, 0). -/
theorem grid_oob_witness :
    ((Grid.new ℕ 2 2).x ≤ (5 : ℕ) ∨ (Grid.new ℕ 2 2).y ≤ (0 : ℕ)) ∧
    (Grid.new ℕ 2 2).getCell ⟨5, 0⟩ = none :=
  ⟨by decide,
   (grid_oob_access_absent_and_skipped (Grid.new ℕ 2 2) (by decide) (by decide)
      ⟨5, 0⟩ (by decide)).1⟩

/- ===== Claim C10 ===== -/

theorem entropy_empty : Cell.entropy (Cell.Uncollapsed ([] : List (V × ℕ))) = 0 := by
  simp [Cell.entropy]

theorem entropy_singleton (v : V) (w : ℕ) (hw : 0 < w) :
    Cell.entropy (Cell.Uncollapsed [(v, w)]) = 0 := by
  have hw0 : (w : ℝ) ≠ 0 := Nat.cast_ne_zero.mpr hw.ne'
  simp [Cell.entropy, div_self hw0, Real.logb_one]

/-- C10: the entropy of an uncollapsed cell with at most one entry is
exactly 0, the value also returned for a collapsed cell, so in the
`next_coord` scan an emptied contradiction cell ties with a
single-candidate cell instead of ranking strictly lower: with those two
cells as the candidates, the collected minimum-entropy tie list holds
both coordinates. -/
theorem entropy_zero_empty_singleton_tie (v : V) (w : ℕ) (hw : 0 < w) (x : V)
    (c1 c2 : C) :
    Cell.entropy (Cell.Uncollapsed ([] : List (V × ℕ))) = 0 ∧
    Cell.entropy (Cell.Uncollapsed [(v, w)]) = 0 ∧
    Cell.entropy (Cell.Collapsed x) = 0 ∧
    ¬ Cell.entropy (Cell.Uncollapsed ([] : List (V × ℕ)))
        < Cell.entropy (Cell.Uncollapsed [(v, w)]) ∧
    (nextCoordScan [(c1, Cell.Uncollapsed ([] : List (V × ℕ))),
                    (c2, Cell.Uncollapsed [(v, w)])]).1 = [c1, c2] := by
  have hempty := entropy_empty (V := V)
  have hsingle := entropy_singleton v w hw
  refine ⟨hempty, hsingle, rfl, ?_, ?_⟩
  · rw [hempty, hsingle]; exact lt_irrefl 0
  · simp [nextCoordScan, candidatesL, Cell.isCollapsed, scanStep, hempty, hsingle]

/-- Witness for the C10 theorem at concrete natural-number values and
coordinates. -/
theorem entropy_tie_witness :
    0 < 1 ∧
    (nextCoordScan [((0 : ℕ), Cell.Uncollapsed ([] : List (ℕ × ℕ))),
                    (1, Cell.Uncollapsed [((0 : ℕ), 1)])]).1 = [0, 1] :=
  ⟨by decide, (entropy_zero_empty_singleton_tie 0 1 (by decide) 0 0 1).2.2.2.2⟩

/- ===== Claim C5 ===== -/

theorem scanStepF_fst_ne_nil (st : List C × F) (p : C × Cell V)
    (h : st.1 ≠ []) : (scanStepF st p).1 ≠ [] := by
  simp only [scanStepF]
  split
  · split
    · simp
    · simp
  · split
    · simp
    · exact h

theorem scanStepF_skip {st : List C × F} {p : C × Cell V}
    (h1 : fbeq (Cell.entropyF p.2) st.2 = false)
    (h2 : fblt (Cell.entropyF p.2) st.2 = false) : scanStepF st p = st := by
  simp [scanStepF, h1, h2]

theorem scanF_foldl_nil (cs : List (C × Cell V)) :
    ∀ st : List C × F, (cs.foldl scanStepF st).1 = [] →
      st.1 = [] ∧ ∀ p ∈ cs,
        fbeq (Cell.entropyF p.2) st.2 = false ∧
        fblt (Cell.entropyF p.2) st.2 = false := by
  induction cs with
  | nil => intro st h; exact ⟨h, by simp⟩
  | cons p rest ih =>
      intro st h
      simp only [List.foldl_cons] at h
      obtain ⟨h1, h2⟩ := ih _ h
      by_cases hbeq : fbeq (Cell.entropyF p.2) st.2 = true
      · exfalso
        have hne : (scanStepF st p).1 ≠ [] := by
          simp only [scanStepF, hbeq, if_true]
          split
          · simp
          · simp
        exact hne h1
      · have hbeq2 : fbeq (Cell.entropyF p.2) st.2 = false := by
          simpa using hbeq
        by_cases hblt : fblt (Cell.entropyF p.2) st.2 = true
        · exfalso
          have : (scanStepF st p).1 ≠ [] := by
            simp [scanStepF, hbeq2, hblt]
          exact this h1
        · have hblt2 : fblt (Cell.entropyF p.2) st.2 = false := by
            simpa using hblt
          have hskip : scanStepF st p = st := scanStepF_skip hbeq2 hblt2
          rw [hskip] at h1 h2
          refine ⟨h1, ?_⟩
          intro q hq
          rcases List.mem_cons.mp hq with h3 | h3
          · subst h3; exact ⟨hbeq2, hblt2⟩
          · exact h2 q h3

theorem nextCoordMF_none {l : SLayout C V} {rng r : List ℕ}
    (h : nextCoordMF l rng = (none, r)) :
    ∀ p ∈ candidatesL l,
      fbeq (Cell.entropyF p.2) (F.fin f64MAX) = false ∧
      fblt (Cell.entropyF p.2) (F.fin f64MAX) = false := by
  unfold nextCoordMF chooseL at h
  cases hxs : (nextCoordScanF l).1 with
  | cons a rest =>
      rw [hxs] at h
      have h2 : (a :: rest)[List.headD rng 0 % (a :: rest).length]? = none :=
        congrArg Prod.fst h
      have h3 := List.getElem?_eq_none_iff.mp h2
      have hlt : List.headD rng 0 % (a :: rest).length < (a :: rest).length :=
        Nat.mod_lt _ (by simp)
      omega
  | nil =>
      have h4 : ((candidatesL l).foldl scanStepF ([], F.fin f64MAX)).1 = [] := by
        simpa [nextCoordScanF] using hxs
      exact (scanF_foldl_nil (candidatesL l) _ h4).2

theorem term_bound {x : ℝ} (h0 : 0 < x) (h1 : x ≤ 1) :
    -2 ≤ x * Real.logb 2 x ∧ x * Real.logb 2 x ≤ 0 := by
  have hlog2 : (0.6931471803 : ℝ) < Real.log 2 := Real.log_two_gt_d9
  have hpos : (0 : ℝ) < Real.log 2 := by linarith
  constructor
  · have hinv : Real.log x⁻¹ ≤ x⁻¹ - 1 :=
      Real.log_le_sub_one_of_pos (by positivity)
    rw [Real.log_inv] at hinv
    have hs : -(x * Real.log x) ≤ 1 - x := by
      have h2 := mul_le_mul_of_nonneg_left hinv (le_of_lt h0)
      have h3 : x * (x⁻¹ - 1) = 1 - x := by field_simp
      nlinarith
    have h4 : -(1 : ℝ) ≤ x * Real.log x := by linarith
    have h5 : x * Real.logb 2 x = (x * Real.log x) / Real.log 2 := by
      unfold Real.logb
      ring
    rw [h5, le_div_iff hpos]
    nlinarith
  · have h6 : Real.logb 2 x ≤ 0 := Real.logb_nonpos (by norm_num) (le_of_lt h0) h1
    exact mul_nonpos_of_nonneg_of_nonpos (le_of_lt h0) h6

theorem totalF_fold (m : List (V × ℕ)) (t0 : ℝ) :
    m.foldl (fun acc p => fadd acc (F.fin (p.2 : ℝ))) (F.fin t0)
      = F.fin (t0 + (m.map (fun q => ((q.2 : ℕ) : ℝ))).sum) := by
  induction m generalizing t0 with
  | nil => simp
  | cons q rest ih =>
      simp only [List.foldl_cons]
      have hstep : fadd (F.fin t0) (F.fin (q.2 : ℝ)) = F.fin (t0 + (q.2 : ℝ)) := rfl
      rw [hstep, ih]
      simp only [List.map_cons, List.sum_cons]
      ring_nf

theorem accF_fold {T : ℝ} (hT : 0 < T) :
    ∀ (m : List (V × ℕ)) (a0 : ℝ),
      (∀ q ∈ m, 0 < ((q.2 : ℕ) : ℝ) ∧ ((q.2 : ℕ) : ℝ) ≤ T) →
      ∃ s, m.foldl
            (fun acc p =>
              fadd acc (fmul (fdiv (F.fin (p.2 : ℝ)) (F.fin T))
                (flog2 (fdiv (F.fin (p.2 : ℝ)) (F.fin T)))))
            (F.fin a0) = F.fin s ∧ a0 - 2 * m.length ≤ s ∧ s ≤ a0 := by
  intro m
  induction m with
  | nil => intro a0 _; exact ⟨a0, rfl, by simp, le_refl a0⟩
  | cons q rest ih =>
      intro a0 hq
      have hw := hq q (by simp)
      have hne : T ≠ 0 := ne_of_gt hT
      have hp0 : 0 < (q.2 : ℝ) / T := div_pos hw.1 hT
      have hp1 : (q.2 : ℝ) / T ≤ 1 := (div_le_one hT).mpr hw.2
      have hdiv : fdiv (F.fin (q.2 : ℝ)) (F.fin T) = F.fin ((q.2 : ℝ) / T) := by
        simp [fdiv, hne]
      have hlog : flog2 (F.fin ((q.2 : ℝ) / T)) = F.fin (Real.logb 2 ((q.2 : ℝ) / T)) := by
        simp [flog2, ne_of_gt hp0, not_lt_of_lt hp0]
      have hterm := term_bound hp0 hp1
      obtain ⟨s, hs, hlo, hhi⟩ :=
        ih (a0 + ((q.2 : ℝ) / T) * Real.logb 2 ((q.2 : ℝ) / T))
          (fun r hr => hq r (by simp [hr]))
      refine ⟨s, ?_, ?_, ?_⟩
      · simp only [List.foldl_cons]
        rw [hdiv, hlog]
        have hmf : fmul (F.fin ((q.2 : ℝ) / T)) (F.fin (Real.logb 2 ((q.2 : ℝ) / T)))
            = F.fin (((q.2 : ℝ) / T) * Real.logb 2 ((q.2 : ℝ) / T)) := rfl
        have haf : fadd (F.fin a0) (F.fin (((q.2 : ℝ) / T) * Real.logb 2 ((q.2 : ℝ) / T)))
            = F.fin (a0 + ((q.2 : ℝ) / T) * Real.logb 2 ((q.2 : ℝ) / T)) := rfl
        rw [hmf, haf]
        exact hs
      · simp only [List.length_cons]
        push_cast
        linarith
      · linarith

theorem entropyF_posmap {m : List (V × ℕ)} (hpos : posWeights m) :
    ∃ v, Cell.entropyF (Cell.Uncollapsed m) = F.fin v ∧
      0 ≤ v ∧ v ≤ 2 * m.length := by
  cases m with
  | nil =>
      refine ⟨0, ?_, le_refl 0, by simp⟩
      simp [Cell.entropyF, fneg]
  | cons q rest =>
      set m := q :: rest with hm
      set T : ℝ := (m.map (fun r => ((r.2 : ℕ) : ℝ))).sum with hTdef
      have hT : 0 < T := by
        refine List.sum_pos _ ?_ (by simp [hm])
        intro x hx
        obtain ⟨r, hr, hrx⟩ := List.mem_map.mp hx
        have := hpos r hr
        subst hrx
        exact_mod_cast this
      have hle : ∀ r ∈ m, 0 < ((r.2 : ℕ) : ℝ) ∧ ((r.2 : ℕ) : ℝ) ≤ T := by
        intro r hr
        refine ⟨by exact_mod_cast hpos r hr, ?_⟩
        refine List.single_le_sum (fun x hx => ?_) _ (List.mem_map.mpr ⟨r, hr, rfl⟩)
        obtain ⟨r2, hr2, hrx⟩ := List.mem_map.mp hx
        subst hrx
        positivity
      obtain ⟨s, hs, hlo, hhi⟩ := accF_fold hT m 0 hle
      refine ⟨-s, ?_, by linarith, ?_⟩
      · simp only [Cell.entropyF]
        rw [totalF_fold, zero_add, ← hTdef, hs]
        rfl
      · have : (0 : ℝ) - 2 * m.length ≤ s := hlo
        linarith

theorem two_pow65_lt_f64MAX : (2 : ℝ) ^ 65 < f64MAX := by
  unfold f64MAX
  have h1 : (2 : ℝ) ^ 971 ≤ 2 ^ 1023 := pow_le_pow_right₀ (by norm_num) (by norm_num)
  have h2 : (2 : ℝ) ^ 65 < 2 ^ 1023 := pow_lt_pow_right₀ (by norm_num) (by norm_num)
  have h3 : (2 : ℝ) ^ 1024 = 2 ^ 1023 * 2 := pow_succ 2 1023
  linarith

theorem nextCoordMF_none_leftover {l : SLayout C V} {rng r : List ℕ}
    (h : nextCoordMF l rng = (none, r)) :
    ∀ q ∈ l, q.2.isCollapsed = false →
      (∃ e ∈ q.2.getPossibilities, e.2 = 0) ∨
      2 ^ 64 < q.2.getPossibilities.length := by
  intro q hq hunc
  by_contra hcon
  push_neg at hcon
  obtain ⟨hzero, hlen⟩ := hcon
  have hqc : q ∈ candidatesL l := List.mem_filter.mpr ⟨hq, by simp [hunc]⟩
  have hflags := nextCoordMF_none h q hqc
  cases hcell : q.2 with
  | Collapsed v =>
      rw [hcell] at hunc
      simp [Cell.isCollapsed] at hunc
  | Uncollapsed m =>
      have hposm : posWeights m := by
        intro e he
        have h2 := hzero e (by rw [hcell]; exact he)
        exact Nat.pos_of_ne_zero h2
      obtain ⟨v, hv, hv0, hvle⟩ := entropyF_posmap hposm
      have hlen2 : (m.length : ℝ) ≤ 2 ^ 64 := by
        have h3 : m.length ≤ 2 ^ 64 := by
          simpa [hcell, Cell.getPossibilities] using hlen
        exact_mod_cast h3
      have hvlt : v < f64MAX := by
        have h65 := two_pow65_lt_f64MAX
        have h66 : (2 : ℝ) ^ 65 = 2 * 2 ^ 64 := by ring
        nlinarith
      have htrue : fblt (Cell.entropyF q.2) (F.fin f64MAX) = true := by
        rw [hcell, hv]
        simp [fblt, hvlt]
      rw [hflags.2] at htrue
      exact Bool.noConfusion htrue

theorem solverF_sound_aux (hook : SLayout C V → C → V → SLayout C V) (fuel : ℕ) :
    (∀ layout coord rng l rng2,
       collapseGoF hook fuel layout coord rng = some (some l, rng2) →
       ∀ q ∈ l, q.2.isCollapsed = false →
         (∃ e ∈ q.2.getPossibilities, e.2 = 0) ∨
         2 ^ 64 < q.2.getPossibilities.length) ∧
    (∀ layout coord wi rng l rng2,
       loopGoF hook fuel layout coord wi rng = some (some l, rng2) →
       ∀ q ∈ l, q.2.isCollapsed = false →
         (∃ e ∈ q.2.getPossibilities, e.2 = 0) ∨
         2 ^ 64 < q.2.getPossibilities.length) := by
  induction fuel with
  | zero =>
      constructor
      · intro layout coord rng l rng2 h
        exact absurd h (by simp [collapseGoF])
      · intro layout coord wi rng l rng2 h
        exact absurd h (by simp [loopGoF])
  | succ fuel ih =>
      constructor
      · intro layout coord rng l rng2 h
        simp only [collapseGoF] at h
        cases hg : getCellL layout coord with
        | none => rw [hg] at h; exact absurd h (by simp)
        | some cell => rw [hg] at h; exact ih.2 _ _ _ _ _ _ h
      · intro layout coord wi rng l rng2 h
        simp only [loopGoF] at h
        split at h
        · exact absurd h (by simp)
        · simp at h
        · split at h
          · exact absurd h (by simp)
          · split at h
            · rename_i hnc
              simp only [Option.some_inj, Prod.mk.injEq] at h
              obtain ⟨rfl, -⟩ := h
              exact nextCoordMF_none_leftover hnc
            · split at h
              · exact absurd h (by simp)
              · rename_i hcg
                simp only [Option.some_inj, Prod.mk.injEq] at h
                obtain ⟨rfl, -⟩ := h
                exact ih.1 _ _ _ _ _ hcg
              · exact ih.2 _ _ _ _ _ _ h

/-- C5 refuted as stated: on a layout whose only cell is an uncollapsed
superposition holding a zero-weight entry, the f64 entropy computation
yields NaN (0.0/0.0), both comparisons in `next_coord` are false, the
cell is never collected, `next_coord` returns None, and `solve()`
returns Some of a layout that still contains an uncollapsed cell. -/
theorem solve_returns_layout_with_uncollapsed_cell :
    solveMF (C := ℕ) (V := ℕ) (fun l _ _ => l) 1
        [(0, Cell.Uncollapsed [(0, 0)])] []
      = some (some [(0, Cell.Uncollapsed [(0, 0)])], []) ∧
    candidatesL [((0 : ℕ), Cell.Uncollapsed [((0 : ℕ), 0)])] ≠ [] := by
  constructor
  · simp [solveMF, nextCoordMF, nextCoordScanF, candidatesL, Cell.isCollapsed,
      scanStepF, Cell.entropyF, fadd, fdiv, fmul, flog2, fneg, fbeq, fblt, chooseL]
  · simp [candidatesL, Cell.isCollapsed]

/-- C5 amended: whenever the solver search returns a layout as a
solution, every cell of that layout is collapsed except possibly
uncollapsed cells that `next_coord` cannot select: cells whose
superposition stores a zero-weight entry (NaN entropy in f64), or whose
map has more than 2 to the 64 entries (impossible for a real HashMap).
In particular a returned layout in which every superposition is
all-positive and of realistic size is fully collapsed. -/
theorem solveF_uncollapsed_remnant_has_zero_weight
    (hook : SLayout C V → C → V → SLayout C V) (fuel : ℕ)
    (initial : SLayout C V) (rng : List ℕ) (l : SLayout C V) (rng2 : List ℕ)
    (h : solveMF hook fuel initial rng = some (some l, rng2)) :
    ∀ q ∈ l, q.2.isCollapsed = false →
      (∃ e ∈ q.2.getPossibilities, e.2 = 0) ∨
      2 ^ 64 < q.2.getPossibilities.length := by
  unfold solveMF at h
  cases hnc : nextCoordMF initial rng with
  | mk oc rng' =>
      rw [hnc] at h
      cases oc with
      | none =>
          simp only [Option.some_inj, Prod.mk.injEq] at h
          obtain ⟨rfl, -⟩ := h
          exact nextCoordMF_none_leftover hnc
      | some c => exact (solverF_sound_aux hook fuel).1 _ _ _ _ _ h

/-- Witness for the amended C5 theorem: the solver run of the
counterexample layout, whose leftover uncollapsed cell does hold a
zero-weight entry. -/
theorem solveF_remnant_witness :
    solveMF (C := ℕ) (V := ℕ) (fun l _ _ => l) 1
        [(0, Cell.Uncollapsed [(0, 0)])] []
      = some (some [(0, Cell.Uncollapsed [(0, 0)])], []) ∧
    (∀ q ∈ [((0 : ℕ), Cell.Uncollapsed [((0 : ℕ), 0)])],
      q.2.isCollapsed = false →
      (∃ e ∈ q.2.getPossibilities, e.2 = 0) ∨
      2 ^ 64 < q.2.getPossibilities.length) := by
  have hrun : solveMF (C := ℕ) (V := ℕ) (fun l _ _ => l) 1
      [(0, Cell.Uncollapsed [(0, 0)])] []
      = some (some [(0, Cell.Uncollapsed [(0, 0)])], []) := by
    simp [solveMF, nextCoordMF, nextCoordScanF, candidatesL, Cell.isCollapsed,
      scanStepF, Cell.entropyF, fadd, fdiv, fmul, flog2, fneg, fbeq, fblt, chooseL]
  exact ⟨hrun,
    solveF_uncollapsed_remnant_has_zero_weight (fun l _ _ => l) 1
      [(0, Cell.Uncollapsed [(0, 0)])] [] [(0, Cell.Uncollapsed [(0, 0)])] [] hrun⟩

/- ===== Claim C7 ===== -/

theorem getCell_modifyCell_ne (g : Grid V) (c c' : Coord2D) (f : Cell V → Cell V)
    (h : c' ≠ c) : (g.modifyCell c f).getCell c' = g.getCell c' := by
  unfold Grid.modifyCell
  split
  · rfl
  · rename_i row hy
    split
    · rfl
    · rename_i cell hx
      have hylt : c.y < g.cells.length := by
        by_contra hcon
        rw [List.getElem?_eq_none (Nat.le_of_not_lt hcon)] at hy
        exact Option.noConfusion hy
      unfold Grid.getCell
      by_cases hyy : c'.y = c.y
      · have hxx : c.x ≠ c'.x := by
          intro hxx
          exact h (by cases c; cases c'; simp_all)
        simp only [hyy, List.getElem?_set_eq hylt, hy, Option.some_bind,
          List.getElem?_set_ne hxx]
      · simp only [List.getElem?_set_ne (fun he => hyy he.symm)]

theorem getCell_modifyCell_self (g : Grid V) (c : Coord2D) (f : Cell V → Cell V) :
    (g.modifyCell c f).getCell c = (g.getCell c).map f := by
  unfold Grid.modifyCell
  split
  · rename_i hy
    unfold Grid.getCell
    simp [hy]
  · rename_i row hy
    split
    · rename_i hx
      unfold Grid.getCell
      simp [hy, hx]
    · rename_i cell hx
      have hylt : c.y < g.cells.length := by
        by_contra hcon
        rw [List.getElem?_eq_none (Nat.le_of_not_lt hcon)] at hy
        exact Option.noConfusion hy
      have hxlt : c.x < row.length := by
        by_contra hcon
        rw [List.getElem?_eq_none (Nat.le_of_not_lt hcon)] at hx
        exact Option.noConfusion hx
      unfold Grid.getCell
      simp only [List.getElem?_set_eq hylt, Option.some_bind,
        List.getElem?_set_eq hxlt, hy, hx, Option.map_some']

theorem wrapSub_one_ne (a : ℕ) : wrapSub a 1 ≠ a := by
  simp only [wrapSub, USIZE]
  norm_num
  omega

theorem wrapAdd_one_ne (a : ℕ) : wrapAdd a 1 ≠ a := by
  simp only [wrapAdd, USIZE]
  norm_num
  omega

theorem wrapSub_ne_wrapAdd (a : ℕ) : wrapSub a 1 ≠ wrapAdd a 1 := by
  simp only [wrapSub, wrapAdd, USIZE]
  norm_num
  omega

theorem orth4_coords_nodup (c : Coord2D) :
    ((c.neighborDirections4).map Prod.fst).Nodup := by
  have h12 : c.up ≠ c.left := by
    intro h
    simp only [Coord2D.up, Coord2D.left, Coord2D.mk.injEq] at h
    exact wrapSub_one_ne c.x h.1.symm
  have h13 : c.up ≠ c.right := by
    intro h
    simp only [Coord2D.up, Coord2D.right, Coord2D.mk.injEq] at h
    exact wrapAdd_one_ne c.x h.1.symm
  have h14 : c.up ≠ c.down := by
    intro h
    simp only [Coord2D.up, Coord2D.down, Coord2D.mk.injEq] at h
    exact wrapSub_ne_wrapAdd c.y h.2
  have h23 : c.left ≠ c.right := by
    intro h
    simp only [Coord2D.left, Coord2D.right, Coord2D.mk.injEq] at h
    exact wrapSub_ne_wrapAdd c.x h.1
  have h24 : c.left ≠ c.down := by
    intro h
    simp only [Coord2D.left, Coord2D.down, Coord2D.mk.injEq] at h
    exact wrapSub_one_ne c.x h.1
  have h34 : c.right ≠ c.down := by
    intro h
    simp only [Coord2D.right, Coord2D.down, Coord2D.mk.injEq] at h
    exact wrapAdd_one_ne c.x h.1
  simp only [Coord2D.neighborDirections4, List.map_cons, List.map_nil]
  exact List.nodup_cons.mpr ⟨by simp [h12, h13, h14],
    List.nodup_cons.mpr ⟨by simp [h23, h24],
      List.nodup_cons.mpr ⟨by simp [h34], List.nodup_singleton _⟩⟩⟩

theorem clearFold_frame (ns : List Coord2D) (g : Grid V) (c' : Coord2D)
    (h : c' ∉ ns) :
    (ns.foldl (fun acc n => Grid.clearCell acc n) g).getCell c' = g.getCell c' := by
  induction ns generalizing g with
  | nil => rfl
  | cons n rest ih =>
      simp only [List.foldl_cons]
      rw [ih _ (fun hm => h (List.mem_cons.mpr (Or.inr hm)))]
      exact getCell_modifyCell_ne _ _ _ _ (fun he => h (List.mem_cons.mpr (Or.inl he)))

theorem clearFold_effect (ns : List Coord2D) (g : Grid V) (n : Coord2D)
    (h : n ∈ ns) :
    (ns.foldl (fun acc m => Grid.clearCell acc m) g).getCell n
      = (g.getCell n).map (fun _ => Cell.Uncollapsed []) := by
  induction ns generalizing g with
  | nil => simp at h
  | cons m rest ih =>
      simp only [List.foldl_cons]
      by_cases hmem : n ∈ rest
      · rw [ih _ hmem]
        by_cases he : n = m
        · subst he
          unfold Grid.clearCell
          rw [getCell_modifyCell_self]
          cases g.getCell n <;> rfl
        · unfold Grid.clearCell
          rw [getCell_modifyCell_ne _ _ _ _ he]
      · have he : n = m := by
          rcases List.mem_cons.mp h with h1 | h1
          · exact h1
          · exact absurd h1 hmem
        subst he
        rw [clearFold_frame rest _ _ hmem]
        unfold Grid.clearCell
        rw [getCell_modifyCell_self]

/-- The update that `Standard2D::collapse` performs on one orthogonal
neighbor: absent neighbors stay absent, a direction with no recorded
adjacencies clears the neighbor, and a recorded direction merges with
Intersection and Min. -/
def orthExpected (tileAdj : List (Direction × List (V × ℕ))) (g : Grid V)
    (nd : Coord2D × Direction) : Option (Cell V) :=
  match alookup tileAdj nd.2, g.getCell nd.1 with
  | _, none => none
  | none, some _ => some (Cell.Uncollapsed [])
  | some ws, some cell =>
      cell.mergeCellPossibilities Operation.Intersection Function.Min ws

theorem mergeMin_some (cell : Cell V) (ws : List (V × ℕ)) :
    ∃ c', cell.mergeCellPossibilities Operation.Intersection Function.Min ws
      = some c' := by
  cases hm : cell.mergeCellPossibilities Operation.Intersection Function.Min ws with
  | some c' => exact ⟨c', rfl⟩
  | none =>
      have := (mergeCellPossibilities_eq_none_iff cell Operation.Intersection
        Function.Min ws).mp hm
      exact absurd this.1 (by simp)

theorem orthStep_some (tileAdj : List (Direction × List (V × ℕ))) (acc : Grid V)
    (nd : Coord2D × Direction) :
    ∃ g', orthStep tileAdj acc nd = some g' ∧
      (∀ c', c' ≠ nd.1 → g'.getCell c' = acc.getCell c') ∧
      g'.getCell nd.1 = orthExpected tileAdj acc nd := by
  unfold orthStep orthExpected
  cases hl : alookup tileAdj nd.2 with
  | none =>
      refine ⟨acc.clearCell nd.1, rfl, ?_, ?_⟩
      · intro c' hc
        unfold Grid.clearCell
        exact getCell_modifyCell_ne _ _ _ _ hc
      · unfold Grid.clearCell
        rw [getCell_modifyCell_self]
        cases acc.getCell nd.1 <;> rfl
  | some ws =>
      cases hcell : acc.getCell nd.1 with
      | none =>
          refine ⟨acc, ?_, fun c' _ => rfl, ?_⟩
          · unfold Grid.mergeCellPossibilities
            rw [hcell]
          · rw [hcell]
      | some cell =>
          obtain ⟨c2, hc2⟩ := mergeMin_some cell ws
          refine ⟨acc.modifyCell nd.1 (fun _ => c2), ?_, ?_, ?_⟩
          · simp only [Grid.mergeCellPossibilities, hcell, hc2, Option.map_some']
          · intro c' hc
            exact getCell_modifyCell_ne _ _ _ _ hc
          · rw [getCell_modifyCell_self, hcell]
            simp [hc2]

theorem orthFold (tileAdj : List (Direction × List (V × ℕ)))
    (nds : List (Coord2D × Direction)) :
    ∀ g : Grid V, (nds.map Prod.fst).Nodup →
      ∃ g', List.foldlM (orthStep tileAdj) g nds = some g' ∧
        (∀ c', c' ∉ nds.map Prod.fst → g'.getCell c' = g.getCell c') ∧
        (∀ nd ∈ nds, g'.getCell nd.1 = orthExpected tileAdj g nd) := by
  induction nds with
  | nil =>
      intro g _
      exact ⟨g, rfl, fun c' _ => rfl, fun nd hm => absurd hm (by simp)⟩
  | cons nd rest ih =>
      intro g hnd
      simp only [List.map_cons, List.nodup_cons] at hnd
      obtain ⟨g1, hstep, hframe1, heff1⟩ := orthStep_some tileAdj g nd
      obtain ⟨g2, hfold, hframe2, heff2⟩ := ih g1 hnd.2
      refine ⟨g2, ?_, ?_, ?_⟩
      · rw [List.foldlM_cons, hstep]
        simpa using hfold
      · intro c' hc
        simp only [List.map_cons, List.mem_cons, not_or] at hc
        rw [hframe2 c' hc.2, hframe1 c' hc.1]
      · intro nd2 hnd2
        rcases List.mem_cons.mp hnd2 with h1 | h1
        · subst h1
          rw [hframe2 nd2.1 hnd.1, heff1]
        · rw [heff2 nd2 h1]
          unfold orthExpected
          rw [hframe1 nd2.1
            (fun he => hnd.1 (he ▸ List.mem_map.mpr ⟨nd2, h1, rfl⟩))]

/-- C7: refuted as stated. When the collapsed tile has no adjacency entry
at all, `Standard2D::collapse` iterates `coord.neighbors()` and clears all
eight neighbors, not only the four orthogonal ones: on a 3 by 3 grid with
every cell holding one candidate, collapsing (1,1) with an unknown tile
also empties the diagonal neighbor (0,0), which is not an orthogonal
neighbor. -/
theorem std2d_missing_adjacency_clears_diagonal :
    ((std2dCollapse ([] : AdjMap ℕ)
        ⟨3, 3, List.replicate 3 (List.replicate 3 (Cell.Uncollapsed [(5, 1)]))⟩
        ⟨1, 1⟩ 7).bind
      (fun g2 => g2.getCell ⟨0, 0⟩) = some (Cell.Uncollapsed [])) ∧
    (Grid.getCell
        ⟨3, 3, List.replicate 3 (List.replicate 3 (Cell.Uncollapsed [((5 : ℕ), 1)]))⟩
        ⟨0, 0⟩ = some (Cell.Uncollapsed [(5, 1)])) ∧
    ¬ ((⟨0, 0⟩ : Coord2D) ∈ (Coord2D.neighborDirections4 ⟨1, 1⟩).map Prod.fst) := by
  refine ⟨?_, by decide, by decide⟩
  decide

/-- C7 amended: when the collapsed value has a recorded adjacency entry,
`Standard2D::collapse` touches exactly the four orthogonal neighbors
(per direction: an Intersection-Min merge when the direction has recorded
adjacencies, a clear to the empty superposition when it does not) and
leaves every other cell unchanged; when the value has no adjacency entry
at all, it clears all eight neighbors and leaves every other cell
unchanged. -/
theorem std2d_collapse_effects (adj : AdjMap V) (g : Grid V) (coord : Coord2D)
    (value : V) :
    (∀ tileAdj, alookup adj value = some tileAdj →
      ∃ g', std2dCollapse adj g coord value = some g' ∧
        (∀ c', c' ∉ coord.neighborDirections4.map Prod.fst →
           g'.getCell c' = g.getCell c') ∧
        (∀ nd ∈ coord.neighborDirections4,
           g'.getCell nd.1 = orthExpected tileAdj g nd)) ∧
    (alookup adj value = none →
      ∃ g', std2dCollapse adj g coord value = some g' ∧
        (∀ c', c' ∉ coord.neighbors → g'.getCell c' = g.getCell c') ∧
        (∀ n ∈ coord.neighbors,
           g'.getCell n = (g.getCell n).map (fun _ => Cell.Uncollapsed []))) := by
  constructor
  · intro tileAdj hl
    obtain ⟨g', h1, h2, h3⟩ :=
      orthFold tileAdj coord.neighborDirections4 g (orth4_coords_nodup coord)
    refine ⟨g', ?_, h2, h3⟩
    unfold std2dCollapse
    rw [hl]
    exact h1
  · intro hl
    refine ⟨coord.neighbors.foldl (fun acc n => acc.clearCell n) g, ?_, ?_, ?_⟩
    · unfold std2dCollapse
      rw [hl]
    · intro c' hc
      exact clearFold_frame _ _ _ hc
    · intro n hn
      exact clearFold_effect _ _ _ hn

/-- Witness for the amended C7 theorem: a concrete tile with no adjacency
entry on a 3 by 3 grid. -/
theorem std2d_collapse_witness :
    alookup ([] : AdjMap ℕ) 7 = none ∧
    (∃ g', std2dCollapse ([] : AdjMap ℕ) (Grid.new ℕ 3 3) ⟨1, 1⟩ 7 = some g' ∧
      (∀ c', c' ∉ (Coord2D.neighbors ⟨1, 1⟩) →
         g'.getCell c' = (Grid.new ℕ 3 3).getCell c') ∧
      (∀ n ∈ Coord2D.neighbors ⟨1, 1⟩,
         g'.getCell n
           = ((Grid.new ℕ 3 3).getCell n).map (fun _ => Cell.Uncollapsed []))) :=
  ⟨rfl, (std2d_collapse_effects [] (Grid.new ℕ 3 3) ⟨1, 1⟩ 7).2 rfl⟩

end WFS
